import Mathlib

/-!
Shallow embedding of `fmtlatex.py` (a LaTeX source reformatter).

Strings are modelled as `List Char`.  Python's `re` patterns that the code
relies on are translated into explicit character scans; `textwrap.fill` /
`textwrap.dedent` are translated into explicit greedy word-wrap functions.
All definitions are executable, so concrete runs can be settled by `decide`.
-/

namespace Fmtlatex

/-- Characters stripped by Python's `str.strip` / regex `\s` (ASCII fragment):
space, tab, newline, carriage return, vertical tab, form feed. -/
def pySpace (c : Char) : Bool :=
  c = ' ' || c = '\t' || c = '\n' || c = '\r' || c = '\x0b' || c = '\x0c'

/-- Python `str.lstrip()`. -/
def lstrip (cs : List Char) : List Char := cs.dropWhile pySpace

/-- Python `str.rstrip()`. -/
def rstrip (cs : List Char) : List Char := (cs.reverse.dropWhile pySpace).reverse

/-- Python `str.strip()`. -/
def strip (cs : List Char) : List Char := rstrip (lstrip cs)

/-- Convenience injection of string literals into the model. -/
def S (s : String) : List Char := s.toList

/-- The lookbehind class of `RX_FULL_STOP`: `(?<=([\@$}\'0-9a-z]))`, i.e. the
characters `@`, `$`, `}`, `'`, the digits, and the lowercase letters. -/
def stopPrev (c : Char) : Bool :=
  c = '@' || c = '$' || c = '}' || c = '\'' ||
    ('0' ≤ c && c ≤ '9') || ('a' ≤ c && c ≤ 'z')

/-- Regex `\w` (ASCII fragment): letters, digits, underscore. -/
def wordChar (c : Char) : Bool := c.isAlpha || c.isDigit || c = '_'

/-- The negative-lookahead class of `RX_FULL_STOP`: `(?![,\w\\~])`. -/
def stopFollowBad (c : Char) : Bool :=
  c = ',' || wordChar c || c = '\\' || c = '~'

/-- The lookahead of `RX_FULL_STOP` succeeds: either end of string, or the
next character is not in `[,\w\\~]`. -/
def nextOk : List Char → Bool
  | [] => true
  | d :: _ => !stopFollowBad d

/-- A lookbehind test applied to an optional preceding character: fails at
the very start of the string. -/
def prevOkWith (pOk : Char → Bool) : Option Char → Bool
  | some p => pOk p
  | none => false

/-- Scanner for the first match of `RX_FULL_STOP`,
`(?<=([\@$}\'0-9a-z]))\.(?![,\w\\~])`: `prev` is the character immediately
before the current suffix (`none` at the start of the string).  On a match it
returns the text up to and including the period paired with the
left-stripped remainder (mirroring `split_first_sentence`'s use of
`m.span()[1]` and `lstrip`). -/
def sfsAux (prev : Option Char) : List Char → Option (List Char × List Char)
  | [] => none
  | c :: rest =>
    if c = '.' && prevOkWith stopPrev prev && nextOk rest then
      some ([c], lstrip rest)
    else
      match sfsAux (some c) rest with
      | some (fs, rem) => some (c :: fs, rem)
      | none => none

/-- `split_first_sentence(line)`: split at the first match of `RX_FULL_STOP`;
if there is no match, return `(line, '')`. -/
def split_first_sentence (line : List Char) : List Char × List Char :=
  match sfsAux none line with
  | some (fs, rem) => (fs, rem)
  | none => (line, [])

/-- `RX_FULL_STOP.search(cs)` viewed as a boolean. -/
def hasStop (cs : List Char) : Bool := (sfsAux none cs).isSome

/-- Python slice `s[-n:]`. -/
def takeLast (n : Nat) (cs : List Char) : List Char := cs.drop (cs.length - n)

/-- `ends_with_full_stop(line)`: search `RX_FULL_STOP` within the last two
characters of the right-stripped line. -/
def ends_with_full_stop (line : List Char) : Bool :=
  hasStop (takeLast 2 (rstrip line))

/-- Scanner for `RX_LATEX_COMMENT.match`, pattern `(.*[^\\]|\s*)%.*`:
the line matches iff some `%` at position `i` is reachable by the whole
prefix being whitespace (`\s*`), or by `i ≥ 1` with the character at `i-1`
not a backslash (`[^\\]`) and every character before position `i-1` not a
newline (`.*`).  `allSpace` records whether all characters before the current
one are whitespace; `initNoNl` whether all characters strictly before `prev`
are non-newline. -/
def commentAux (prev : Option Char) (allSpace initNoNl : Bool) :
    List Char → Bool
  | [] => false
  | c :: rest =>
    if c = '%' && (allSpace ||
        (match prev with | some p => decide (p ≠ '\\') && initNoNl | none => false)) then
      true
    else
      commentAux (some c) (allSpace && pySpace c)
        (match prev with | some p => initNoNl && decide (p ≠ '\n') | none => true) rest

/-- `RX_LATEX_COMMENT.match(line)` as a boolean. -/
def commentMatch (cs : List Char) : Bool := commentAux none true true cs

/-- `RX_LATEX_SECTION.match`, pattern
`\s*\\(part|chapter|section|subsection|subsubsection|image)`. -/
def sectionMatch (cs : List Char) : Bool :=
  match lstrip cs with
  | '\\' :: rest =>
      (S "part").isPrefixOf rest || (S "chapter").isPrefixOf rest ||
      (S "section").isPrefixOf rest || (S "subsection").isPrefixOf rest ||
      (S "subsubsection").isPrefixOf rest || (S "image").isPrefixOf rest
  | _ => false

/-- `RX_LATEX_BEGIN_DOC.match`, pattern `\\begin\{(document|abstract)`. -/
def beginDocMatch (cs : List Char) : Bool :=
  (S "\\begin\x7bdocument").isPrefixOf cs || (S "\\begin\x7babstract").isPrefixOf cs

/-- `RX_LATEX_END_DOC.match`, pattern `\\end\{(document|abstract)`. -/
def endDocMatch (cs : List Char) : Bool :=
  (S "\\end\x7bdocument").isPrefixOf cs || (S "\\end\x7babstract").isPrefixOf cs

/-- `is_protected(line)`: the line matches one of `RX_LATEX_COMMENT`,
`RX_LATEX_SECTION`, `RX_LATEX_BEGIN_DOC`, `RX_LATEX_END_DOC`. -/
def is_protected (line : List Char) : Bool :=
  commentMatch line || sectionMatch line || beginDocMatch line || endDocMatch line

/-- Number of occurrences of `pat` in `cs`.  `re.findall` counts
non-overlapping occurrences; for the literal patterns `\begin` and `\end`
(which have no nonempty border, hence cannot overlap themselves) this equals
the count of all occurrences, which is what this structural scan computes. -/
def countOcc (pat : List Char) : List Char → Nat
  | [] => 0
  | c :: rest =>
    (if pat.isPrefixOf (c :: rest) then 1 else 0) + countOcc pat rest

/-- `group_tally(line)`: occurrences of `\begin` minus occurrences of
`\end`. -/
def group_tally (line : List Char) : Int :=
  (countOcc (S "\\begin") line : Int) - (countOcc (S "\\end") line : Int)

/-- Result record of `process_line`. -/
structure PLResult where
  cat_buffer : List Char
  line : List Char
  open_groups : Int
  ready_for_output : Bool
  protect : Bool
  deriving Repr, DecidableEq

/-- `process_line(cat_buffer, line, open_groups)`, a direct translation of
the Python function.  The protected branch leaves `open_groups` unchanged
because `line_group_tally` is only assigned for non-protected lines. -/
def process_line (cat_buffer line : List Char) (open_groups : Int) : PLResult :=
  let l := strip line
  if is_protected l then
    if cat_buffer.length = 0 then
      ⟨rstrip line, [], open_groups, true, true⟩
    else
      ⟨cat_buffer, line, open_groups, true, false⟩
  else
    let tally := group_tally l
    if tally = 0 ∧ open_groups = 0 then
      let fsr := split_first_sentence l
      let cat1 := if cat_buffer.length > 0 then cat_buffer ++ ' ' :: fsr.1 else fsr.1
      let ready := decide (fsr.2.length > 0) || ends_with_full_stop fsr.1
      ⟨cat1, fsr.2, open_groups, ready, false⟩
    else
      -- in_group: protect is forced to true
      if cat_buffer.length = 0 then
        ⟨rstrip line, [], open_groups + tally, true, true⟩
      else
        ⟨cat_buffer, line, open_groups, true, false⟩

/-- Python `str.expandtabs()` with tab size 8 (used by `textwrap.fill`):
each tab advances the column to the next multiple of 8; newline and carriage
return reset the column. -/
def expandTabsAux : Nat → List Char → List Char
  | _, [] => []
  | col, c :: rest =>
    if c = '\t' then
      List.replicate (8 - col % 8) ' ' ++ expandTabsAux (col + (8 - col % 8)) rest
    else if c = '\n' || c = '\r' then
      c :: expandTabsAux 0 rest
    else
      c :: expandTabsAux (col + 1) rest

/-- `textwrap`'s `_munge_whitespace`: expand tabs, then replace every
whitespace character by a single space. -/
def munge (text : List Char) : List Char :=
  (expandTabsAux 0 text).map (fun c => if pySpace c then ' ' else c)

/-- `textwrap`'s chunk splitting with `break_on_hyphens=False`: split the
munged text on `(\s+)`, keeping the separators, i.e. group consecutive
characters into maximal runs of spaces / non-spaces. -/
def chunksOf : List Char → List (List Char)
  | [] => []
  | c :: rest =>
    match chunksOf rest with
    | [] => [[c]]
    | [] :: gs => [c] :: [] :: gs
    | (d :: ds) :: gs =>
      if (c == ' ') = (d == ' ') then (c :: d :: ds) :: gs
      else [c] :: (d :: ds) :: gs

/-- A chunk consisting only of whitespace (`chunk.strip() == ''`; after
munging the only whitespace character is a space). -/
def isSpaceChunk (ch : List Char) : Bool := ch.all (fun c => c = ' ')

/-- State of the greedy wrapper: emitted lines, the chunks of the current
line, and its running length. -/
structure WrapState where
  lines : List (List Char)
  cur : List (List Char)
  curLen : Nat
  deriving Repr

/-- `drop_whitespace` at the end of a line: remove a trailing whitespace
chunk from the current line. -/
def dropTrailingSpace (cur : List (List Char)) : List (List Char) :=
  match cur.getLast? with
  | some last => if isSpaceChunk last then cur.dropLast else cur
  | none => cur

/-- Flush the wrapper's current line: drop a trailing whitespace chunk and,
unless the line is then empty, append its concatenation to the emitted
lines. -/
def flushCur (st : WrapState) : List (List Char) :=
  if (dropTrailingSpace st.cur).isEmpty then st.lines
  else st.lines ++ [(dropTrailingSpace st.cur).flatten]

/-- One step of `textwrap._wrap_chunks` (with `drop_whitespace=True`,
`break_long_words=False`, empty indents), processing a single chunk:

* at the start of a line, a whitespace chunk is dropped when some line was
  already emitted; any other chunk starts the line (even when longer than
  `width`: with `break_long_words=False` the long word is placed whole and
  left to overflow);
* otherwise the chunk is appended when it fits, and else the current line is
  flushed (dropping a trailing whitespace chunk; an all-whitespace line is
  discarded) and the chunk starts the next line under the start-of-line
  rules. -/
def wrapStep (width : Nat) (st : WrapState) (ch : List Char) : WrapState :=
  if st.cur.isEmpty then
    if isSpaceChunk ch && !st.lines.isEmpty then st
    else ⟨st.lines, [ch], ch.length⟩
  else
    if st.curLen + ch.length ≤ width then
      ⟨st.lines, st.cur ++ [ch], st.curLen + ch.length⟩
    else
      if isSpaceChunk ch && !(flushCur st).isEmpty then ⟨flushCur st, [], 0⟩
      else ⟨flushCur st, [ch], ch.length⟩

/-- `textwrap.wrap(text, width, break_on_hyphens=False,
break_long_words=False)` on munged chunks: fold the chunks through
`wrapStep` and flush the final line. -/
def wrapChunks (width : Nat) (chunks : List (List Char)) : List (List Char) :=
  flushCur (chunks.foldl (wrapStep width) ⟨[], [], 0⟩)

/-- `'\n'.join(...)`. -/
def joinNL : List (List Char) → List Char
  | [] => []
  | [l] => l
  | l :: ls => l ++ '\n' :: joinNL ls

/-- `s.split('\n')`. -/
def splitNL : List Char → List (List Char)
  | [] => [[]]
  | c :: rest =>
    if c = '\n' then [] :: splitNL rest
    else
      match splitNL rest with
      | l :: ls => (c :: l) :: ls
      | [] => [[c]]

/-- `textwrap.fill(text, width, break_on_hyphens=False,
break_long_words=False)`. -/
def fill (text : List Char) (width : Nat) : List Char :=
  joinNL (wrapChunks width (chunksOf (munge text)))

/-- `textwrap.dedent`, specialised to single-line text (the texts reflowed by
this program contain no interior newline): the common whitespace margin of
all lines is then the line's own leading run of spaces and tabs, which is
removed (a line that is entirely spaces/tabs is normalised to empty, which
the same removal yields). -/
def dedent (text : List Char) : List Char :=
  text.dropWhile (fun c => c = ' ' || c = '\t')

/-- `reflow(text, width, protect)`: protected text is returned unchanged,
otherwise it is stripped, dedented and wrapped. -/
def reflow (text : List Char) (width : Nat) (protect : Bool) : List Char :=
  if protect then text
  else fill (dedent (strip text)) width

/-- Loop state of `format_latex`: output buffer, open-group tally,
accumulated text, protect flag. -/
structure FmtState where
  out_buffer : List (List Char)
  open_groups : Int
  cat_buffer : List Char
  protect : Bool
  deriving Repr

/-- One driver iteration after `process_line`: when `ready_for_output`,
flush the accumulator through `reflow` and reset it. -/
def driveStep (width : Nat) (st : FmtState) (r : PLResult) : FmtState :=
  if r.ready_for_output then
    ⟨st.out_buffer ++ [reflow r.cat_buffer width r.protect], r.open_groups, [], false⟩
  else
    ⟨st.out_buffer, r.open_groups, r.cat_buffer, r.protect⟩

/-- The driver's inner `while len(line) > 0` loop, with explicit fuel (the
loop terminates because every `process_line` call either consumes the line,
strictly shortens it, or forces a flush after which the next call consumes
it; `2 * line.length + 1` fuel always suffices, see
`processWholeF_add_fuel`). -/
def processWholeF (width : Nat) : Nat → FmtState → List Char → FmtState
  | 0, st, _ => st
  | fuel + 1, st, line =>
    if line.length = 0 then st
    else
      let r := process_line st.cat_buffer line st.open_groups
      processWholeF width fuel (driveStep width st r) r.line

/-- The driver's inner loop on one input line. -/
def processWhole (width : Nat) (st : FmtState) (line : List Char) : FmtState :=
  processWholeF width (2 * line.length + 1) st line

/-- Flush of a pending accumulator (used at blank lines and at the end of
the input): when the accumulator is non-empty, reflow it and append. -/
def finalOut (width : Nat) (st : FmtState) : List (List Char) :=
  if st.cat_buffer.length > 0 then
    st.out_buffer ++ [reflow st.cat_buffer width st.protect]
  else st.out_buffer

/-- One iteration of the driver's `for line in lines` loop: a blank line
flushes the pending accumulator and appends a paragraph separator; any other
line runs the inner loop. -/
def formatStep (width : Nat) (st : FmtState) (line : List Char) : FmtState :=
  if (strip line).length = 0 then
    ⟨finalOut width st ++ [[]], st.open_groups, [], false⟩
  else
    processWhole width st line

/-- The initial driver state. -/
def initState : FmtState := ⟨[], 0, [], false⟩

/-- The output buffer of `format_latex(lines, width)`. -/
def format_out_buffer (lines : List (List Char)) (width : Nat) :
    List (List Char) :=
  finalOut width (lines.foldl (formatStep width) initState)

/-- `format_latex(lines, width)`: the output buffer joined with newlines. -/
def format_latex (lines : List (List Char)) (width : Nat := 80) : List Char :=
  joinNL (format_out_buffer lines width)

/-- The test suite's `to_lines`: split a string on newlines and re-terminate
each piece with a newline (feeding formatter output back in). -/
def relines (s : List Char) : List (List Char) :=
  (splitNL s).map (fun l => l ++ ['\n'])

/-- `line.endswith("\n")`. -/
def endsNL (line : List Char) : Bool := line.getLast? = some '\n'

/-- The driver including its `assert line.endswith("\n")`: processing aborts
at the first input element that does not end with a newline. -/
def formatStepE (width : Nat) (st : Except Unit FmtState) (line : List Char) :
    Except Unit FmtState :=
  match st with
  | .error e => .error e
  | .ok s => if endsNL line then .ok (formatStep width s line) else .error ()

/-- `format_latex` with the per-line assertion modelled as an `Except`. -/
def format_latex_checked (lines : List (List Char)) (width : Nat := 80) :
    Except Unit (List Char) :=
  match lines.foldl (formatStepE width) (.ok initState) with
  | .error e => .error e
  | .ok st => .ok (joinNL (finalOut width st))

/-- Declarative boundary predicate, parametric in the lookbehind class:
position `i` of the string (continuing after an optional preceding
character `prev`) holds a period whose predecessor passes `pOk` and whose
successor passes the lookahead. -/
def boundaryFromWith (pOk : Char → Bool) (prev : Option Char) :
    List Char → Nat → Bool
  | [], _ => false
  | c :: rest, 0 => c = '.' && prevOkWith pOk prev && nextOk rest
  | c :: rest, i + 1 => boundaryFromWith pOk (some c) rest i

/-- Position `i` of `cs` is a sentence boundary for the code's lookbehind
class `[\@$}\'0-9a-z]`. -/
def boundaryAt (cs : List Char) (i : Nat) : Bool :=
  boundaryFromWith stopPrev none cs i

/-- The lookbehind class as the spec claim words it: "a word character,
digit, currency/at-symbol, math-delimiter, or closing-brace character". -/
def claimPrevOk (c : Char) : Bool :=
  wordChar c || c.isDigit || c = '@' || c = '$' || c = '}'

/-- Position `i` of `cs` is a sentence boundary according to the claim's
wording of the lookbehind class. -/
def claimedBoundaryAt (cs : List Char) (i : Nat) : Bool :=
  boundaryFromWith claimPrevOk none cs i

/-- `cs` contains a non-whitespace character (equivalently,
`cs.strip() != ''`). -/
def hasNonSpace (cs : List Char) : Bool := cs.any (fun c => !pySpace c)

/-- Termination measure of the driver's inner loop: each `process_line` call
either strictly shortens the line, or keeps it while forcing a flush that
empties the accumulator. -/
def plMeasure (cat line : List Char) : Nat :=
  2 * line.length + (if cat = [] then 0 else 1)

/-- Well-formedness of a chunk produced by `chunksOf` on munged text:
nonempty, homogeneous (all spaces or no space), and newline-free. -/
def chunkGood (ch : List Char) : Prop :=
  ch ≠ [] ∧ (∀ c ∈ ch, c = ' ') ∨ ch ≠ [] ∧ (∀ c ∈ ch, c ≠ ' ' ∧ c ≠ '\n')

/-- A well-formed output line of the wrapper: nonempty, newline-free, and
either within the width or a single unbreakable word (no space). -/
def lineGood (width : Nat) (ln : List Char) : Prop :=
  ln ≠ [] ∧ (∀ c ∈ ln, c ≠ '\n') ∧
    (ln.length ≤ width ∨ ∀ c ∈ ln, c ≠ ' ')

/-- Invariant of the greedy wrapper state. -/
def WrapInv (width : Nat) (st : WrapState) : Prop :=
  (∀ ln ∈ st.lines, lineGood width ln) ∧
  (∀ ch ∈ st.cur, chunkGood ch) ∧
  st.curLen = st.cur.flatten.length ∧
  (st.curLen ≤ width ∨ ∃ ch, st.cur = [ch])

/-- Invariant of the driver state between input lines: the accumulator is
empty or contains visible text, and the protect flag is clear. -/
def FmtInv (st : FmtState) : Prop :=
  (st.cat_buffer = [] ∨ hasNonSpace st.cat_buffer = true) ∧ st.protect = false

/-- Input of the idempotence counterexample: a 76-character word, two
spaces, and a short final word ending in a period.  The first formatting
pass wraps at width 80 and drops the double space at the line break; the
second pass rejoins the words with a single space, which now fits on one
line. -/
def ce2input : List Char := List.replicate 76 'w' ++ S "  bb."

/-- The example input from the specification (section 8). -/
def specExample : List Char :=
  S "In this paper, we consider a\nnetwork consisting of a cascade\nof cavities. The network is depicted\nin \\Fig{network}."

/-! ### Basic whitespace lemmas -/

theorem length_dropWhile_le (p : Char → Bool) (l : List Char) :
    (l.dropWhile p).length ≤ l.length := by
  induction l with
  | nil => simp
  | cons c rest ih =>
    rw [List.dropWhile_cons]
    split
    · exact Nat.le_succ_of_le ih
    · exact le_rfl

theorem length_lstrip_le (cs : List Char) : (lstrip cs).length ≤ cs.length :=
  length_dropWhile_le pySpace cs

theorem length_rstrip_le (cs : List Char) : (rstrip cs).length ≤ cs.length := by
  have h := length_lstrip_le cs.reverse
  simpa [rstrip, lstrip] using h

theorem length_strip_le (cs : List Char) : (strip cs).length ≤ cs.length :=
  le_trans (length_rstrip_le (lstrip cs)) (length_lstrip_le cs)

theorem lstrip_eq_nil_iff (cs : List Char) :
    lstrip cs = [] ↔ ∀ c ∈ cs, pySpace c := by
  simp [lstrip, List.dropWhile_eq_nil_iff]

theorem rstrip_eq_nil_iff (cs : List Char) :
    rstrip cs = [] ↔ ∀ c ∈ cs, pySpace c := by
  constructor
  · intro h c hc
    have h2 : cs.reverse.dropWhile pySpace = [] := by
      have := congrArg List.reverse h
      simpa [rstrip] using this
    exact (List.dropWhile_eq_nil_iff.mp h2) c (by simpa using hc)
  · intro h
    have h2 : cs.reverse.dropWhile pySpace = [] :=
      List.dropWhile_eq_nil_iff.mpr (fun c hc => h c (by simpa using hc))
    simp [rstrip, h2]

theorem strip_eq_nil_iff (cs : List Char) :
    strip cs = [] ↔ ∀ c ∈ cs, pySpace c := by
  rw [strip, rstrip_eq_nil_iff]
  constructor
  · intro h c hc
    have h0 := List.takeWhile_append_dropWhile (p := pySpace) (l := cs)
    rw [← h0] at hc
    rcases List.mem_append.mp hc with h1 | h2
    · exact List.mem_takeWhile_imp h1
    · exact h c h2
  · intro h c hc
    have h0 := List.takeWhile_append_dropWhile (p := pySpace) (l := cs)
    have hcs : c ∈ cs := by
      rw [← h0]
      exact List.mem_append_right _ hc
    exact h c hcs

/-! ### Sentence-splitter lemmas -/

theorem sfsAux_of_boundary (cs : List Char) :
    ∀ (prev : Option Char) (i : Nat),
      boundaryFromWith stopPrev prev cs i = true →
      (∀ j, j < i → boundaryFromWith stopPrev prev cs j = false) →
      sfsAux prev cs = some (cs.take (i + 1), lstrip (cs.drop (i + 1))) := by
  induction cs with
  | nil =>
    intro prev i hb _
    simp [boundaryFromWith] at hb
  | cons c rest ih =>
    intro prev i hb hmin
    cases i with
    | zero =>
      have hcond : (decide (c = '.') && prevOkWith stopPrev prev && nextOk rest)
          = true := hb
      simp [sfsAux, hcond]
    | succ k =>
      have h0 : (decide (c = '.') && prevOkWith stopPrev prev && nextOk rest)
          = false := hmin 0 (Nat.succ_pos k)
      have hb' : boundaryFromWith stopPrev (some c) rest k = true := hb
      have hmin' : ∀ j, j < k → boundaryFromWith stopPrev (some c) rest j = false :=
        fun j hj => hmin (j + 1) (Nat.succ_lt_succ hj)
      simp [sfsAux, h0, ih (some c) k hb' hmin']

theorem sfsAux_eq_none (cs : List Char) :
    ∀ prev : Option Char,
      (∀ i, boundaryFromWith stopPrev prev cs i = false) →
      sfsAux prev cs = none := by
  induction cs with
  | nil => intro prev _; rfl
  | cons c rest ih =>
    intro prev h
    have h0 : (decide (c = '.') && prevOkWith stopPrev prev && nextOk rest)
        = false := h 0
    simp [sfsAux, h0, ih (some c) (fun i => h (i + 1))]

theorem sfsAux_length (cs : List Char) :
    ∀ (prev : Option Char) (fs rem : List Char),
      sfsAux prev cs = some (fs, rem) →
      rem.length + fs.length ≤ cs.length ∧ 1 ≤ fs.length := by
  induction cs with
  | nil =>
    intro prev fs rem h
    simp [sfsAux] at h
  | cons c rest ih =>
    intro prev fs rem h
    by_cases hc : (decide (c = '.') && prevOkWith stopPrev prev && nextOk rest) = true
    · simp only [sfsAux, hc, if_true] at h
      simp only [Option.some.injEq, Prod.mk.injEq] at h
      obtain ⟨hfs, hrem⟩ := h
      subst hfs
      subst hrem
      constructor
      · have := length_lstrip_le rest
        simp only [List.length_cons, List.length_nil]
        omega
      · simp
    · have hc' : (decide (c = '.') && prevOkWith stopPrev prev && nextOk rest)
          = false := Bool.eq_false_iff.mpr hc
      simp only [sfsAux, hc'] at h
      cases hres : sfsAux (some c) rest with
      | none => rw [hres] at h; simp at h
      | some pr =>
        obtain ⟨fs', rem'⟩ := pr
        rw [hres] at h
        simp at h
        obtain ⟨hfs, hrem⟩ := h
        obtain ⟨h1, h2⟩ := ih (some c) fs' rem' hres
        subst hfs
        subst hrem
        constructor
        · simp only [List.length_cons]
          omega
        · simp

theorem split_first_sentence_rest (line : List Char) :
    (split_first_sentence line).2 = [] ∨
    (split_first_sentence line).2.length + 2 ≤ line.length := by
  cases h : sfsAux none line with
  | none =>
    left
    simp [split_first_sentence, h]
  | some pr =>
    obtain ⟨fs, rem⟩ := pr
    right
    have hsnd : (split_first_sentence line).2 = rem := by
      simp [split_first_sentence, h]
    rw [hsnd]
    cases line with
    | nil => simp [sfsAux] at h
    | cons c rest =>
      have hcond : (decide (c = '.') && prevOkWith stopPrev none && nextOk rest)
          = false := by
        simp [prevOkWith]
      simp only [sfsAux, hcond] at h
      cases hres : sfsAux (some c) rest with
      | none => rw [hres] at h; simp at h
      | some pr'
      =>
        obtain ⟨fs', rem'⟩ := pr'
        rw [hres] at h
        simp at h
        obtain ⟨hfs, hrem⟩ := h
        obtain ⟨h1, h2⟩ := sfsAux_length rest (some c) fs' rem' hres
        subst hrem
        have hle : rem'.length + 1 ≤ rest.length :=
          le_trans (Nat.add_le_add_left h2 _) h1
        simp only [List.length_cons]
        omega

/-- C1 (amended): `split_first_sentence` splits at the first position that is
a genuine sentence-ending full stop for the code's lookbehind class — a
period preceded by a lowercase letter, digit, `@`, `$`, apostrophe or `}`,
and not followed by a comma, word character, backslash or tilde; when such a
boundary exists the result is the text up to and including the period
together with the left-stripped remainder, and when none exists it is
`(line, '')`. -/
theorem split_first_sentence_boundary (line : List Char) :
    ((∀ i, boundaryAt line i = false) → split_first_sentence line = (line, [])) ∧
    (∀ i, boundaryAt line i = true → (∀ j, j < i → boundaryAt line j = false) →
      split_first_sentence line = (line.take (i + 1), lstrip (line.drop (i + 1)))) := by
  constructor
  · intro h
    rw [split_first_sentence, sfsAux_eq_none line none h]
  · intro i hb hmin
    rw [split_first_sentence, sfsAux_of_boundary line none i hb hmin]

/-- Witness for C1's amended theorem at a concrete input. -/
theorem split_first_sentence_boundary_witness :
    split_first_sentence (S "ab. cd") =
      ((S "ab. cd").take 3, lstrip ((S "ab. cd").drop 3)) :=
  (split_first_sentence_boundary (S "ab. cd")).2 2 (by decide)
    (by decide)

/-- C1 counterexample: at `"A. b"` the claim's boundary definition (which
admits any word character, in particular an uppercase letter, before the
period) marks position 1 as a sentence boundary, yet the code finds no
boundary and returns `(line, '')` rather than the claimed split. -/
theorem split_first_sentence_claim_cex :
    claimedBoundaryAt (S "A. b") 1 = true ∧
    split_first_sentence (S "A. b") = (S "A. b", []) ∧
    split_first_sentence (S "A. b") ≠ (S "A.", S "b") :=
  ⟨by decide, by decide, by decide⟩

/-! ### Line-processor theorems -/

/-- C7: on a plain prose line (not protected, balanced, no open group) the
processor appends the first sentence to the accumulator with a separating
space iff the accumulator is non-empty, returns the left-stripped remainder,
leaves the tally unchanged, and reports ready iff the remainder is non-empty
or the first sentence ends with a full stop. -/
theorem process_line_plain (cat line : List Char) (og : Int)
    (hp : is_protected (strip line) = false)
    (ht : group_tally (strip line) = 0) (hog : og = 0) :
    process_line cat line og =
      ⟨(if cat.length > 0 then
          cat ++ ' ' :: (split_first_sentence (strip line)).1
        else (split_first_sentence (strip line)).1),
        (split_first_sentence (strip line)).2, og,
        decide ((split_first_sentence (strip line)).2.length > 0)
          || ends_with_full_stop (split_first_sentence (strip line)).1,
        false⟩ := by
  subst hog
  simp [process_line, hp, ht]

/-- Witness for `process_line_plain` at a concrete input. -/
theorem process_line_plain_witness :
    process_line (S "Hello") (S "world. next\n") 0 =
      ⟨(if (S "Hello").length > 0 then
          S "Hello" ++ ' ' :: (split_first_sentence (strip (S "world. next\n"))).1
        else (split_first_sentence (strip (S "world. next\n"))).1),
        (split_first_sentence (strip (S "world. next\n"))).2, 0,
        decide ((split_first_sentence (strip (S "world. next\n"))).2.length > 0)
          || ends_with_full_stop (split_first_sentence (strip (S "world. next\n"))).1,
        false⟩ :=
  process_line_plain (S "Hello") (S "world. next\n") 0 (by decide) (by decide) rfl

/-- C9: a protected line never changes the open-group tally, even if it
textually contains `\begin` or `\end` markers, because the tally is only
computed for non-protected lines. -/
theorem process_line_protected_groups (cat line : List Char) (og : Int)
    (hp : is_protected (strip line) = true) :
    (process_line cat line og).open_groups = og := by
  by_cases hcat : cat.length = 0
  · simp [process_line, hp, hcat]
  · simp [process_line, hp, hcat]

/-- Witness for `process_line_protected_groups`: a comment line containing
`\begin{equation}` has a nonzero textual tally but opens no group. -/
theorem process_line_protected_groups_witness :
    group_tally (strip (S "% \\begin{equation}\n")) = 1 ∧
    (process_line [] (S "% \\begin{equation}\n") 0).open_groups = 0 :=
  ⟨by decide,
   process_line_protected_groups [] (S "% \\begin{equation}\n") 0 (by decide)⟩

/-- C10: each `process_line` call on a non-empty line either consumes the
line, strictly shortens it, or returns it unchanged with the ready flag set,
in which case the next call (with the flushed, empty accumulator) consumes
it entirely. -/
theorem process_line_progress (cat line : List Char) (og : Int)
    (h : line ≠ []) :
    (process_line cat line og).line = [] ∨
    (process_line cat line og).line.length < line.length ∨
    ((process_line cat line og).line = line ∧
      (process_line cat line og).ready_for_output = true ∧
      (process_line [] line (process_line cat line og).open_groups).line = []) := by
  by_cases hp : is_protected (strip line) = true
  · by_cases hcat : cat.length = 0
    · left
      simp [process_line, hp, hcat]
    · right; right
      refine ⟨?_, ?_, ?_⟩ <;> simp [process_line, hp, hcat]
  · have hp' : is_protected (strip line) = false := Bool.eq_false_iff.mpr hp
    by_cases hcond : group_tally (strip line) = 0 ∧ og = 0
    · rcases split_first_sentence_rest (strip line) with hr | hr
      · left
        simp [process_line, hp', hcond, hr]
      · right; left
        have hs := length_strip_le line
        simp [process_line, hp', hcond]
        omega
    · by_cases hcat : cat.length = 0
      · left
        simp [process_line, hp', hcond, hcat]
      · right; right
        refine ⟨?_, ?_, ?_⟩ <;> simp [process_line, hp', hcond, hcat]

/-- Witness for `process_line_progress` at a concrete input (a protected
line arriving while the accumulator is non-empty: the third alternative). -/
theorem process_line_progress_witness :
    (process_line (S "pending") (S "% note\n") 0).line = [] ∨
    (process_line (S "pending") (S "% note\n") 0).line.length <
      (S "% note\n").length ∨
    ((process_line (S "pending") (S "% note\n") 0).line = S "% note\n" ∧
      (process_line (S "pending") (S "% note\n") 0).ready_for_output = true ∧
      (process_line [] (S "% note\n")
        (process_line (S "pending") (S "% note\n") 0).open_groups).line = []) :=
  process_line_progress (S "pending") (S "% note\n") 0 (by decide)

/-! ### Driver-loop lemmas -/

theorem plMeasure_le (a b : List Char) : plMeasure a b ≤ 2 * b.length + 1 := by
  unfold plMeasure
  split <;> omega

theorem plMeasure_lb (a b : List Char) : 2 * b.length ≤ plMeasure a b := by
  unfold plMeasure
  split <;> omega

theorem driveStep_measure (w : Nat) (st : FmtState) (line : List Char)
    (h : line ≠ []) :
    plMeasure
        (driveStep w st (process_line st.cat_buffer line st.open_groups)).cat_buffer
        (process_line st.cat_buffer line st.open_groups).line <
      plMeasure st.cat_buffer line := by
  have hlen : 0 < line.length := List.length_pos.mpr h
  by_cases hp : is_protected (strip line) = true
  · by_cases hcat : st.cat_buffer.length = 0
    · have hr : process_line st.cat_buffer line st.open_groups =
          ⟨rstrip line, [], st.open_groups, true, true⟩ := by
        simp [process_line, hp, hcat]
      rw [hr]
      simp [driveStep, plMeasure]
      omega
    · have hr : process_line st.cat_buffer line st.open_groups =
          ⟨st.cat_buffer, line, st.open_groups, true, false⟩ := by
        simp [process_line, hp, hcat]
      rw [hr]
      have hcat' : ¬ st.cat_buffer = [] := by
        intro hh
        exact hcat (by simp [hh])
      simp [driveStep, plMeasure, hcat']
  · have hp' : is_protected (strip line) = false := Bool.eq_false_iff.mpr hp
    by_cases hcond : group_tally (strip line) = 0 ∧ st.open_groups = 0
    · have hline : (process_line st.cat_buffer line st.open_groups).line =
          (split_first_sentence (strip line)).2 := by
        simp [process_line, hp', hcond]
      have hfl : (split_first_sentence (strip line)).2.length < line.length := by
        rcases split_first_sentence_rest (strip line) with hr | hr
        · rw [hr]
          simpa using hlen
        · have := length_strip_le line
          omega
      have h1 := plMeasure_le
        (driveStep w st (process_line st.cat_buffer line st.open_groups)).cat_buffer
        (process_line st.cat_buffer line st.open_groups).line
      have h2 := plMeasure_lb st.cat_buffer line
      rw [hline] at h1
      rw [hline]
      omega
    · by_cases hcat : st.cat_buffer.length = 0
      · have hr : process_line st.cat_buffer line st.open_groups =
            ⟨rstrip line, [], st.open_groups + group_tally (strip line),
              true, true⟩ := by
          simp [process_line, hp', hcond, hcat]
        rw [hr]
        simp [driveStep, plMeasure]
        omega
      · have hr : process_line st.cat_buffer line st.open_groups =
            ⟨st.cat_buffer, line, st.open_groups, true, false⟩ := by
          simp [process_line, hp', hcond, hcat]
        rw [hr]
        have hcat' : ¬ st.cat_buffer = [] := by
          intro hh
          exact hcat (by simp [hh])
        simp [driveStep, plMeasure, hcat']

theorem processWholeF_nil (w fuel : Nat) (st : FmtState) :
    processWholeF w fuel st [] = st := by
  cases fuel <;> simp [processWholeF]

theorem driveStep_out (w : Nat) (st : FmtState) (r : PLResult) :
    ∃ e, (driveStep w st r).out_buffer = st.out_buffer ++ e := by
  unfold driveStep
  split
  · exact ⟨[reflow r.cat_buffer w r.protect], rfl⟩
  · exact ⟨[], by simp⟩

theorem processWholeF_out_mono (w : Nat) :
    ∀ (fuel : Nat) (st : FmtState) (line : List Char),
      ∃ ext, (processWholeF w fuel st line).out_buffer = st.out_buffer ++ ext := by
  intro fuel
  induction fuel with
  | zero =>
    intro st line
    exact ⟨[], by simp [processWholeF]⟩
  | succ f ih =>
    intro st line
    by_cases hl : line.length = 0
    · exact ⟨[], by simp [processWholeF, hl]⟩
    · obtain ⟨e1, h1⟩ :=
        driveStep_out w st (process_line st.cat_buffer line st.open_groups)
      obtain ⟨e2, h2⟩ :=
        ih (driveStep w st (process_line st.cat_buffer line st.open_groups))
          (process_line st.cat_buffer line st.open_groups).line
      refine ⟨e1 ++ e2, ?_⟩
      simp only [processWholeF, hl, if_false]
      rw [h2, h1, List.append_assoc]

theorem is_protected_nil : is_protected ([] : List Char) = false := by decide

theorem strip_nil : strip ([] : List Char) = [] := rfl

theorem processWholeF_protected (w : Nat) :
    ∀ (fuel : Nat) (st : FmtState) (line : List Char),
      is_protected (strip line) = true →
      plMeasure st.cat_buffer line ≤ fuel →
      ∃ pre, (processWholeF w fuel st line).out_buffer =
        st.out_buffer ++ pre ++ [rstrip line] := by
  intro fuel
  induction fuel with
  | zero =>
    intro st line hp hm
    exfalso
    have hne : line ≠ [] := by
      intro hh
      subst hh
      rw [strip_nil, is_protected_nil] at hp
      exact Bool.false_ne_true hp
    have hlen := List.length_pos.mpr hne
    have := plMeasure_lb st.cat_buffer line
    omega
  | succ f ih =>
    intro st line hp hm
    have hne : line ≠ [] := by
      intro hh
      subst hh
      rw [strip_nil, is_protected_nil] at hp
      exact Bool.false_ne_true hp
    have hl : ¬ line.length = 0 := by
      intro hh
      exact hne (List.length_eq_zero.mp hh)
    by_cases hcat : st.cat_buffer.length = 0
    · have hr : process_line st.cat_buffer line st.open_groups =
          ⟨rstrip line, [], st.open_groups, true, true⟩ := by
        simp [process_line, hp, hcat]
      refine ⟨[], ?_⟩
      simp only [processWholeF, hl, if_false, hr]
      rw [processWholeF_nil]
      simp [driveStep, reflow]
    · have hr : process_line st.cat_buffer line st.open_groups =
          ⟨st.cat_buffer, line, st.open_groups, true, false⟩ := by
        simp [process_line, hp, hcat]
      have hcat' : ¬ st.cat_buffer = [] := by
        intro hh
        exact hcat (by simp [hh])
      have hm' : plMeasure ([] : List Char) line ≤ f := by
        have h1 : plMeasure ([] : List Char) line = 2 * line.length := by
          unfold plMeasure
          simp
        have h2 : plMeasure st.cat_buffer line = 2 * line.length + 1 := by
          unfold plMeasure
          rw [if_neg hcat']
        omega
      have hst' : driveStep w st ⟨st.cat_buffer, line, st.open_groups, true, false⟩ =
          ⟨st.out_buffer ++ [reflow st.cat_buffer w false], st.open_groups,
            [], false⟩ := by
        simp [driveStep]
      obtain ⟨pre, hpre⟩ := ih
        ⟨st.out_buffer ++ [reflow st.cat_buffer w false], st.open_groups, [], false⟩
        line hp hm'
      refine ⟨reflow st.cat_buffer w false :: pre, ?_⟩
      simp only [processWholeF, hl, if_false, hr, hst']
      rw [hpre]
      simp

theorem formatStep_out_mono (w : Nat) (st : FmtState) (line : List Char) :
    ∃ ext, (formatStep w st line).out_buffer = st.out_buffer ++ ext := by
  unfold formatStep finalOut
  split
  · split
    · exact ⟨[reflow st.cat_buffer w st.protect, []], by simp⟩
    · exact ⟨[[]], by simp⟩
  · exact processWholeF_out_mono w _ st line

theorem foldl_formatStep_out_mono (w : Nat) :
    ∀ (ls : List (List Char)) (st : FmtState),
      ∃ ext, (ls.foldl (formatStep w) st).out_buffer = st.out_buffer ++ ext := by
  intro ls
  induction ls with
  | nil =>
    intro st
    exact ⟨[], by simp⟩
  | cons x xs ih =>
    intro st
    obtain ⟨e1, h1⟩ := formatStep_out_mono w st x
    obtain ⟨e2, h2⟩ := ih (formatStep w st x)
    refine ⟨e1 ++ e2, ?_⟩
    rw [List.foldl_cons, h2, h1, List.append_assoc]

/-- C3: every protected input line (comment, sectioning command, or
document/abstract begin/end marker) appears in the output buffer exactly as
in the input with only trailing whitespace removed, as an entry of its own,
never merged with adjacent prose and never reflowed. -/
theorem protected_line_preserved (w : Nat) (lines : List (List Char))
    (l : List Char) (hmem : l ∈ lines) (hp : is_protected (strip l) = true) :
    rstrip l ∈ format_out_buffer lines w := by
  have main : ∀ (ls : List (List Char)) (st : FmtState), l ∈ ls →
      rstrip l ∈ (ls.foldl (formatStep w) st).out_buffer := by
    intro ls
    induction ls with
    | nil =>
      intro st hmem'
      simp at hmem'
    | cons x xs ih =>
      intro st hmem'
      rcases List.mem_cons.mp hmem' with rfl | hxs
      · obtain ⟨ext, hext⟩ := foldl_formatStep_out_mono w xs (formatStep w st l)
        rw [List.foldl_cons, hext]
        have hsl : ¬ (strip l).length = 0 := by
          intro hh
          have : strip l = [] := List.length_eq_zero.mp hh
          rw [this, is_protected_nil] at hp
          exact Bool.false_ne_true hp
        have hstep : rstrip l ∈ (formatStep w st l).out_buffer := by
          unfold formatStep
          rw [if_neg hsl]
          obtain ⟨pre, hpre⟩ := processWholeF_protected w (2 * l.length + 1)
            st l hp (plMeasure_le _ _)
          unfold processWhole
          rw [hpre]
          simp
        exact List.mem_append_left _ hstep
      · exact ih (formatStep w st x) hxs
  have h := main lines initState hmem
  unfold format_out_buffer finalOut
  split
  · exact List.mem_append_left _ h
  · exact h

/-- Witness for `protected_line_preserved` at a concrete input. -/
theorem protected_line_preserved_witness :
    rstrip (S "\\section{Model}  \n") ∈
      format_out_buffer [S "\\section{Model}  \n", S "Some text.\n"] 80 :=
  protected_line_preserved 80 [S "\\section{Model}  \n", S "Some text.\n"]
    (S "\\section{Model}  \n") (by decide) (by decide)

/-- C4: while `open_groups` is strictly positive (and the accumulator is
empty, as it is between lines inside a group), any line is absorbed whole
and emitted verbatim (only right-stripped), with no sentence-splitting and
no reflow; the tally is adjusted by the line's own group tally when the line
is not protected. -/
theorem group_opacity (w : Nat) (st : FmtState) (line : List Char)
    (hog : 0 < st.open_groups) (hcat : st.cat_buffer = [])
    (hline : line ≠ []) :
    processWhole w st line =
      ⟨st.out_buffer ++ [rstrip line],
        st.open_groups +
          (if is_protected (strip line) = true then 0
           else group_tally (strip line)),
        [], false⟩ := by
  have hl : ¬ line.length = 0 := by
    intro hh
    exact hline (List.length_eq_zero.mp hh)
  have hcl : st.cat_buffer.length = 0 := by
    rw [hcat]
    rfl
  unfold processWhole
  by_cases hp : is_protected (strip line) = true
  · have hr : process_line st.cat_buffer line st.open_groups =
        ⟨rstrip line, [], st.open_groups, true, true⟩ := by
      simp [process_line, hp, hcl]
    simp only [processWholeF, hl, if_false, hr]
    rw [processWholeF_nil]
    simp [driveStep, reflow, hp]
  · have hp' : is_protected (strip line) = false := Bool.eq_false_iff.mpr hp
    have hcond : ¬ (group_tally (strip line) = 0 ∧ st.open_groups = 0) := by
      intro hh
      omega
    have hr : process_line st.cat_buffer line st.open_groups =
        ⟨rstrip line, [], st.open_groups + group_tally (strip line),
          true, true⟩ := by
      simp [process_line, hp', hcond, hcl]
    simp only [processWholeF, hl, if_false, hr]
    rw [processWholeF_nil]
    simp [driveStep, reflow, hp']

/-- Witness for `group_opacity`: inside an open group a line full of
periods is passed through verbatim. -/
theorem group_opacity_witness :
    processWhole 80 ⟨[], 1, [], false⟩ (S "  a. b. c \\end{equation}\n") =
      ⟨[] ++ [rstrip (S "  a. b. c \\end{equation}\n")],
        1 + (if is_protected (strip (S "  a. b. c \\end{equation}\n")) = true
             then 0 else group_tally (strip (S "  a. b. c \\end{equation}\n"))),
        [], false⟩ :=
  group_opacity 80 ⟨[], 1, [], false⟩ (S "  a. b. c \\end{equation}\n")
    (by decide) rfl (by decide)

/-! ### Assertion behaviour -/

theorem foldl_formatStepE_error (w : Nat) :
    ∀ ls : List (List Char),
      ls.foldl (formatStepE w) (Except.error ()) = Except.error () := by
  intro ls
  induction ls with
  | nil => rfl
  | cons x xs ih => simpa [List.foldl_cons, formatStepE] using ih

theorem foldl_formatStepE_spec (w : Nat) :
    ∀ (ls : List (List Char)) (s : FmtState),
      (ls.foldl (formatStepE w) (Except.ok s) = Except.error () ↔
        ∃ l ∈ ls, endsNL l = false) ∧
      ((∀ l ∈ ls, endsNL l = true) →
        ls.foldl (formatStepE w) (Except.ok s) =
          Except.ok (ls.foldl (formatStep w) s)) := by
  intro ls
  induction ls with
  | nil =>
    intro s
    constructor
    · simp
    · intro _
      rfl
  | cons x xs ih =>
    intro s
    by_cases hx : endsNL x = true
    · have hstep : formatStepE w (Except.ok s) x =
          Except.ok (formatStep w s x) := by
        simp [formatStepE, hx]
      constructor
      · rw [List.foldl_cons, hstep, (ih (formatStep w s x)).1]
        simp [hx]
      · intro hall
        rw [List.foldl_cons, hstep, List.foldl_cons]
        exact (ih (formatStep w s x)).2
          (fun l hl => hall l (List.mem_cons_of_mem _ hl))
    · have hx' : endsNL x = false := Bool.eq_false_iff.mpr hx
      have hstep : formatStepE w (Except.ok s) x = Except.error () := by
        simp [formatStepE, hx']
      constructor
      · rw [List.foldl_cons, hstep, foldl_formatStepE_error]
        constructor
        · intro _
          exact ⟨x, List.mem_cons_self x xs, hx'⟩
        · intro _
          rfl
      · intro hall
        exact absurd (hall x (List.mem_cons_self x xs)) (by simp [hx'])

/-- C8: the checked formatter fails exactly when some input element does not
end with a newline; on any input whose lines all end with a newline
(including unbalanced LaTeX that drives the tally negative, since the tally
is a plain integer) it returns the total `format_latex` result. -/
theorem format_latex_checked_spec (lines : List (List Char)) (w : Nat) :
    (format_latex_checked lines w = Except.error () ↔
      ∃ l ∈ lines, endsNL l = false) ∧
    ((∀ l ∈ lines, endsNL l = true) →
      format_latex_checked lines w = Except.ok (format_latex lines w)) := by
  obtain ⟨h1, h2⟩ := foldl_formatStepE_spec w lines initState
  constructor
  · unfold format_latex_checked
    cases hres : lines.foldl (formatStepE w) (Except.ok initState) with
    | error e =>
      obtain rfl : e = () := rfl
      constructor
      · intro _
        exact h1.mp hres
      · intro _
        rfl
    | ok st =>
      constructor
      · intro hh
        simp at hh
      · intro hex
        exfalso
        have herr := h1.mpr hex
        rw [hres] at herr
        exact Except.noConfusion herr
  · intro hall
    unfold format_latex_checked format_latex format_out_buffer
    rw [h2 hall]

/-- Witness for `format_latex_checked_spec`: a line missing its newline
aborts; a well-terminated input (here one with an unmatched `\end`, driving
the tally negative) is formatted. -/
theorem format_latex_checked_witness :
    format_latex_checked [S "a"] 80 = Except.error () ∧
    format_latex_checked [S "\\end{equation}\n", S "b.\n"] 80 =
      Except.ok (format_latex [S "\\end{equation}\n", S "b.\n"] 80) :=
  ⟨(format_latex_checked_spec [S "a"] 80).1.mpr ⟨S "a", by decide, by decide⟩,
   (format_latex_checked_spec [S "\\end{equation}\n", S "b.\n"] 80).2
     (by decide)⟩

/-! ### Idempotence -/

/-- C2 counterexample: the formatter is not idempotent.  On a 76-character
word followed by two spaces and `bb.`, the first pass wraps at width 80,
dropping the double space at the line break; feeding the output back (each
line re-terminated with a newline) rejoins the words with a single space,
which fits within 80 columns, so the second pass differs from the first. -/
theorem format_latex_not_idempotent :
    format_latex (relines (format_latex (relines ce2input) 80)) 80 ≠
      format_latex (relines ce2input) 80 := by decide

/-- C2 (amended): re-running the formatter is a no-op on already-formatted
output with uniform single spacing, as on the specification's own example
input; idempotence fails only where output lines rejoin across a dropped
multiple-space run (see `format_latex_not_idempotent`). -/
theorem format_latex_idempotent_on_example :
    format_latex (relines (format_latex (relines specExample) 80)) 80 =
      format_latex (relines specExample) 80 := by decide

/-! ### Wrapper lemmas -/

theorem flatten_ne_nil (ls : List (List Char)) (h : ls ≠ [])
    (hall : ∀ x ∈ ls, x ≠ []) : ls.flatten ≠ [] := by
  cases ls with
  | nil => exact absurd rfl h
  | cons x xs =>
    have hx : x ≠ [] := hall x (List.mem_cons_self x xs)
    simp only [List.flatten_cons]
    intro hh
    exact hx (List.append_eq_nil.mp hh).1

theorem flatten_dropLast_le (ls : List (List Char)) :
    ls.dropLast.flatten.length ≤ ls.flatten.length := by
  induction ls with
  | nil => simp
  | cons x xs ih =>
    cases xs with
    | nil => simp
    | cons y ys =>
      simp only [List.dropLast_cons₂, List.flatten_cons, List.length_append]
      have h2 := ih
      simp only [List.flatten_cons, List.length_append] at h2
      omega

theorem chunksOf_flatten (cs : List Char) : (chunksOf cs).flatten = cs := by
  induction cs with
  | nil => rfl
  | cons c rest ih =>
    simp only [chunksOf]
    cases hg : chunksOf rest with
    | nil =>
      rw [hg] at ih
      simp only [List.flatten_nil] at ih
      simp [← ih]
    | cons g gs =>
      rw [hg] at ih
      cases g with
      | nil =>
        simp only [List.flatten_cons, List.nil_append] at ih
        simp only []
        simp [List.flatten_cons, ih]
      | cons d ds =>
        simp only []
        split
        · simp only [List.flatten_cons, List.cons_append] at ih ⊢
          rw [ih]
        · simp only [List.flatten_cons, List.cons_append,
            List.singleton_append] at ih ⊢
          rw [ih]
          simp

theorem chunksOf_good (cs : List Char) (hnl : ∀ c ∈ cs, c ≠ '\n') :
    ∀ ch ∈ chunksOf cs, chunkGood ch := by
  induction cs with
  | nil =>
    intro ch hch
    simp [chunksOf] at hch
  | cons c rest ih =>
    have hc : c ≠ '\n' := hnl c (List.mem_cons_self c rest)
    have hrest : ∀ x ∈ rest, x ≠ '\n' :=
      fun x hx => hnl x (List.mem_cons_of_mem c hx)
    intro ch hch
    simp only [chunksOf] at hch
    cases hg : chunksOf rest with
    | nil =>
      rw [hg] at hch
      simp only [] at hch
      simp only [List.mem_singleton] at hch
      subst hch
      by_cases hsp : c = ' '
      · exact Or.inl ⟨by simp, by simp [hsp]⟩
      · exact Or.inr ⟨by simp, by simp [hsp, hc]⟩
    | cons g gs =>
      cases g with
      | nil =>
        exact absurd (ih hrest [] (by rw [hg]; exact List.mem_cons_self [] gs))
          (by simp [chunkGood])
      | cons d ds =>
        rw [hg] at hch
        simp only [] at hch
        have hdgood : chunkGood (d :: ds) :=
          ih hrest (d :: ds) (by rw [hg]; exact List.mem_cons_self _ gs)
        split at hch
        case isTrue heq =>
          rcases List.mem_cons.mp hch with rfl | htail
          · rcases hdgood with ⟨_, hall⟩ | ⟨_, hall⟩
            · have hd : d = ' ' := hall d (List.mem_cons_self d ds)
              have hcsp : c = ' ' := by
                have : (c == ' ') = true := by
                  rw [heq]
                  simp [hd]
                simpa using this
              refine Or.inl ⟨by simp, ?_⟩
              intro x hx
              rcases List.mem_cons.mp hx with rfl | hx'
              · exact hcsp
              · exact hall x hx'
            · have hd : d ≠ ' ' := (hall d (List.mem_cons_self d ds)).1
              have hcsp : c ≠ ' ' := by
                intro hh
                have : (d == ' ') = true := by
                  rw [← heq]
                  simp [hh]
                exact hd (by simpa using this)
              refine Or.inr ⟨by simp, ?_⟩
              intro x hx
              rcases List.mem_cons.mp hx with rfl | hx'
              · exact ⟨hcsp, hc⟩
              · exact hall x hx'
          · exact ih hrest ch (by rw [hg]; exact List.mem_cons_of_mem _ htail)
        case isFalse heq =>
          rcases List.mem_cons.mp hch with rfl | htail
          · by_cases hsp : c = ' '
            · exact Or.inl ⟨by simp, by simp [hsp]⟩
            · exact Or.inr ⟨by simp, by simp [hsp, hc]⟩
          · exact ih hrest ch (by rw [hg]; exact htail)

theorem dropTrailingSpace_mem (cur : List (List Char)) (ch : List Char)
    (h : ch ∈ dropTrailingSpace cur) : ch ∈ cur := by
  unfold dropTrailingSpace at h
  cases hl : cur.getLast? with
  | none =>
    rw [hl] at h
    exact h
  | some last =>
    rw [hl] at h
    simp only at h
    split at h
    · exact (List.dropLast_sublist cur).mem h
    · exact h

theorem dropTrailingSpace_flatten_le (cur : List (List Char)) :
    (dropTrailingSpace cur).flatten.length ≤ cur.flatten.length := by
  unfold dropTrailingSpace
  cases hl : cur.getLast? with
  | none => exact le_rfl
  | some last =>
    simp only
    split
    · exact flatten_dropLast_le cur
    · exact le_rfl

/-- Flushing the current line of a well-formed wrapper state yields a
well-formed output line (when nonempty). -/
theorem cur3_good (width : Nat) (st : WrapState) (hinv : WrapInv width st)
    (hne : dropTrailingSpace st.cur ≠ []) :
    lineGood width (dropTrailingSpace st.cur).flatten := by
  obtain ⟨_, hchunks, hlen, hbound⟩ := hinv
  have hsub : ∀ ch ∈ dropTrailingSpace st.cur, chunkGood ch :=
    fun ch hch => hchunks ch (dropTrailingSpace_mem st.cur ch hch)
  have hnonnil : ∀ ch ∈ dropTrailingSpace st.cur, ch ≠ [] := by
    intro ch hch
    rcases hsub ch hch with ⟨hnn, _⟩ | ⟨hnn, _⟩ <;> exact hnn
  refine ⟨flatten_ne_nil _ hne hnonnil, ?_, ?_⟩
  · intro x hx
    rcases List.mem_flatten.mp hx with ⟨ch, hch, hxch⟩
    rcases hsub ch hch with ⟨_, hall⟩ | ⟨_, hall⟩
    · rw [hall x hxch]
      decide
    · exact (hall x hxch).2
  · rcases hbound with hb | ⟨ch, hcur⟩
    · left
      calc (dropTrailingSpace st.cur).flatten.length
          ≤ st.cur.flatten.length := dropTrailingSpace_flatten_le st.cur
        _ = st.curLen := hlen.symm
        _ ≤ width := hb
    · by_cases hsp : isSpaceChunk ch = true
      · exfalso
        apply hne
        rw [hcur]
        unfold dropTrailingSpace
        simp [hsp]
      · have hd : dropTrailingSpace st.cur = [ch] := by
          rw [hcur]
          unfold dropTrailingSpace
          simp [Bool.eq_false_iff.mpr hsp]
        rw [hd]
        have hchg : chunkGood ch := hchunks ch (by rw [hcur]; exact List.mem_singleton.mpr rfl)
        rcases hchg with ⟨_, hall⟩ | ⟨_, hall⟩
        · exfalso
          apply hsp
          unfold isSpaceChunk
          rw [List.all_eq_true]
          intro x hx
          simpa using hall x hx
        · right
          intro x hx
          simp only [List.flatten_cons, List.flatten_nil, List.append_nil] at hx
          exact (hall x hx).1

/-- The lines produced by flushing the current line of a well-formed state
are all well-formed. -/
theorem flushLines_good (width : Nat) (st : WrapState)
    (hinv : WrapInv width st) :
    ∀ ln ∈ flushCur st, lineGood width ln := by
  unfold flushCur
  split
  · exact hinv.1
  case isFalse hc3 =>
    intro ln hln
    rcases List.mem_append.mp hln with h1 | h2
    · exact hinv.1 ln h1
    · rw [List.mem_singleton.mp h2]
      refine cur3_good width st hinv ?_
      intro hh
      exact hc3 (by rw [hh]; rfl)

/-- Starting a fresh line after a flush keeps the wrapper invariant. -/
theorem wrapBreak_inv (width : Nat) (ch : List Char) (hch : chunkGood ch)
    (lines1 : List (List Char)) (hl1 : ∀ ln ∈ lines1, lineGood width ln) :
    WrapInv width (if (isSpaceChunk ch && !lines1.isEmpty) = true
      then ⟨lines1, [], 0⟩ else ⟨lines1, [ch], ch.length⟩) := by
  split
  · exact ⟨hl1, by intro x hx; simp at hx, rfl, Or.inl (Nat.zero_le _)⟩
  · refine ⟨hl1, ?_, by simp, Or.inr ⟨ch, rfl⟩⟩
    intro x hx
    rw [List.mem_singleton.mp hx]
    exact hch

theorem wrapStep_inv (width : Nat) (st : WrapState) (ch : List Char)
    (hinv : WrapInv width st) (hch : chunkGood ch) :
    WrapInv width (wrapStep width st ch) := by
  obtain ⟨hlines, hchunks, hlen, hbound⟩ := hinv
  unfold wrapStep
  split
  · -- start of a line
    split
    · exact ⟨hlines, hchunks, hlen, hbound⟩
    · refine ⟨hlines, ?_, by simp, Or.inr ⟨ch, rfl⟩⟩
      intro x hx
      rw [List.mem_singleton.mp hx]
      exact hch
  · split
    · -- the chunk fits on the current line
      case isTrue hfit =>
      refine ⟨hlines, ?_, ?_, Or.inl hfit⟩
      · intro x hx
        rcases List.mem_append.mp hx with hx1 | hx2
        · exact hchunks x hx1
        · rw [List.mem_singleton.mp hx2]
          exact hch
      · simp only [List.flatten_append, List.length_append, List.flatten_cons,
          List.flatten_nil, List.append_nil]
        rw [hlen]
    · -- flush and start a new line
      exact wrapBreak_inv width ch hch (flushCur st)
        (flushLines_good width st ⟨hlines, hchunks, hlen, hbound⟩)

theorem wrapInv_foldl (width : Nat) :
    ∀ (chunks : List (List Char)) (st : WrapState),
      WrapInv width st → (∀ ch ∈ chunks, chunkGood ch) →
      WrapInv width (chunks.foldl (wrapStep width) st) := by
  intro chunks
  induction chunks with
  | nil =>
    intro st h _
    exact h
  | cons ch rest ih =>
    intro st h hall
    rw [List.foldl_cons]
    exact ih (wrapStep width st ch)
      (wrapStep_inv width st ch h (hall ch (List.mem_cons_self ch rest)))
      (fun x hx => hall x (List.mem_cons_of_mem ch hx))

theorem wrapChunks_sound (width : Nat) (chunks : List (List Char))
    (hall : ∀ ch ∈ chunks, chunkGood ch) :
    ∀ ln ∈ wrapChunks width chunks, lineGood width ln := by
  have hinv : WrapInv width (chunks.foldl (wrapStep width) ⟨[], [], 0⟩) :=
    wrapInv_foldl width chunks ⟨[], [], 0⟩
      ⟨by intro x hx; simp at hx, by intro x hx; simp at hx, rfl,
        Or.inl (Nat.zero_le _)⟩ hall
  unfold wrapChunks
  exact flushLines_good width _ hinv

theorem munge_no_nl (t : List Char) : ∀ c ∈ munge t, c ≠ '\n' := by
  intro c hc
  unfold munge at hc
  rcases List.mem_map.mp hc with ⟨d, _, hd⟩
  by_cases hsp : pySpace d = true
  · rw [if_pos hsp] at hd
    rw [← hd]
    decide
  · rw [if_neg hsp] at hd
    rw [← hd]
    intro hh
    apply hsp
    rw [hh]
    rfl

theorem splitNL_no_nl (l : List Char) (h : ∀ c ∈ l, c ≠ '\n') :
    splitNL l = [l] := by
  induction l with
  | nil => rfl
  | cons c rest ih =>
    have hc : c ≠ '\n' := h c (List.mem_cons_self c rest)
    have hrest := ih (fun x hx => h x (List.mem_cons_of_mem c hx))
    simp [splitNL, hc, hrest]

theorem splitNL_append (l t : List Char) (h : ∀ c ∈ l, c ≠ '\n') :
    splitNL (l ++ '\n' :: t) = l :: splitNL t := by
  induction l with
  | nil => simp [splitNL]
  | cons c rest ih =>
    have hc : c ≠ '\n' := h c (List.mem_cons_self c rest)
    have hrest := ih (fun x hx => h x (List.mem_cons_of_mem c hx))
    simp [splitNL, hc, hrest]

theorem splitNL_joinNL (ls : List (List Char)) (hne : ls ≠ [])
    (h : ∀ l ∈ ls, ∀ c ∈ l, c ≠ '\n') :
    splitNL (joinNL ls) = ls := by
  induction ls with
  | nil => exact absurd rfl hne
  | cons x xs ih =>
    cases xs with
    | nil =>
      simp only [joinNL]
      exact splitNL_no_nl x (h x (List.mem_cons_self x []))
    | cons y ys =>
      have hjoin : joinNL (x :: y :: ys) = x ++ '\n' :: joinNL (y :: ys) := rfl
      rw [hjoin, splitNL_append x _ (h x (List.mem_cons_self x (y :: ys))),
        ih (by simp) (fun l hl => h l (List.mem_cons_of_mem x hl))]

theorem dropTrailingSpace_eq (cur : List (List Char)) :
    dropTrailingSpace cur = cur ∨
    ∃ last, cur = dropTrailingSpace cur ++ [last] := by
  unfold dropTrailingSpace
  cases hl : cur.getLast? with
  | none =>
    left
    rfl
  | some last =>
    simp only
    split
    · right
      exact ⟨last, (List.dropLast_append_getLast? last hl).symm⟩
    · left
      rfl

/-- Starting a fresh line after a flush keeps the contiguity invariant. -/
theorem wrapBreak_seg (width : Nat) (ch : List Char) (p : List (List Char))
    (lines1 : List (List Char))
    (hl1 : ∀ ln ∈ lines1,
      ∃ sub u v, p ++ [ch] = u ++ sub ++ v ∧ ln = sub.flatten) :
    (∀ ln ∈ (if (isSpaceChunk ch && !lines1.isEmpty) = true
        then (⟨lines1, [], 0⟩ : WrapState)
        else ⟨lines1, [ch], ch.length⟩).lines,
      ∃ sub u v, p ++ [ch] = u ++ sub ++ v ∧ ln = sub.flatten) ∧
    (∃ u, p ++ [ch] = u ++ (if (isSpaceChunk ch && !lines1.isEmpty) = true
        then (⟨lines1, [], 0⟩ : WrapState)
        else ⟨lines1, [ch], ch.length⟩).cur) := by
  split
  · exact ⟨hl1, ⟨p ++ [ch], by simp⟩⟩
  · exact ⟨hl1, ⟨p, rfl⟩⟩

/-- One wrapper step preserves the contiguity invariant: every emitted line
is the concatenation of a consecutive run of already-seen chunks, and the
current line is a suffix of the seen chunks. -/
theorem wrapStep_seg (width : Nat) (p : List (List Char)) (st : WrapState)
    (ch : List Char)
    (hlines : ∀ ln ∈ st.lines, ∃ sub u v, p = u ++ sub ++ v ∧ ln = sub.flatten)
    (hcur : ∃ u, p = u ++ st.cur) :
    (∀ ln ∈ (wrapStep width st ch).lines,
      ∃ sub u v, p ++ [ch] = u ++ sub ++ v ∧ ln = sub.flatten) ∧
    (∃ u, p ++ [ch] = u ++ (wrapStep width st ch).cur) := by
  obtain ⟨u0, hu0⟩ := hcur
  have hlines' : ∀ ln ∈ st.lines,
      ∃ sub u v, p ++ [ch] = u ++ sub ++ v ∧ ln = sub.flatten := by
    intro ln hln
    obtain ⟨sub, u, v, hp, hflat⟩ := hlines ln hln
    exact ⟨sub, u, v ++ [ch], by rw [hp]; simp, hflat⟩
  have hflush : ∀ ln ∈ flushCur st,
      ∃ sub u v, p ++ [ch] = u ++ sub ++ v ∧ ln = sub.flatten := by
    unfold flushCur
    split
    · exact hlines'
    · intro ln hln
      rcases List.mem_append.mp hln with h1 | h2
      · exact hlines' ln h1
      · rw [List.mem_singleton.mp h2]
        rcases dropTrailingSpace_eq st.cur with hdt | ⟨last, hdt⟩
        · refine ⟨dropTrailingSpace st.cur, u0, [ch], ?_, rfl⟩
          rw [hdt, hu0]
        · refine ⟨dropTrailingSpace st.cur, u0, [last, ch], ?_, rfl⟩
          rw [hu0]
          conv_lhs => rw [hdt]
          simp
  unfold wrapStep
  split
  case isTrue hemp =>
    have hcurnil : st.cur = [] := List.isEmpty_iff.mp hemp
    split
    · refine ⟨hlines', ?_⟩
      rw [hcurnil]
      exact ⟨p ++ [ch], by simp⟩
    · exact ⟨hlines', ⟨p, rfl⟩⟩
  · split
    · refine ⟨hlines', ?_⟩
      refine ⟨u0, ?_⟩
      rw [hu0]
      simp
    · exact wrapBreak_seg width ch p (flushCur st) hflush

theorem wrapSeg_foldl (width : Nat) :
    ∀ (chunks : List (List Char)) (p : List (List Char)) (st : WrapState),
      (∀ ln ∈ st.lines, ∃ sub u v, p = u ++ sub ++ v ∧ ln = sub.flatten) →
      (∃ u, p = u ++ st.cur) →
      (∀ ln ∈ (chunks.foldl (wrapStep width) st).lines,
        ∃ sub u v, p ++ chunks = u ++ sub ++ v ∧ ln = sub.flatten) ∧
      (∃ u, p ++ chunks = u ++ (chunks.foldl (wrapStep width) st).cur) := by
  intro chunks
  induction chunks with
  | nil =>
    intro p st h1 h2
    rw [List.foldl_nil, List.append_nil]
    exact ⟨h1, h2⟩
  | cons ch rest ih =>
    intro p st h1 h2
    rw [List.foldl_cons]
    have hstep := wrapStep_seg width p st ch h1 h2
    have hres := ih (p ++ [ch]) (wrapStep width st ch) hstep.1 hstep.2
    constructor
    · intro ln hln
      obtain ⟨sub, u, v, hp, hflat⟩ := hres.1 ln hln
      refine ⟨sub, u, v, ?_, hflat⟩
      rw [← hp]
      simp
    · obtain ⟨u, hu⟩ := hres.2
      refine ⟨u, ?_⟩
      rw [← hu]
      simp

/-- Every line emitted by the wrapper is the concatenation of a consecutive
run of whole chunks: no chunk (word) is ever cut. -/
theorem wrapChunks_seg (width : Nat) (chunks : List (List Char)) :
    ∀ ln ∈ wrapChunks width chunks,
      ∃ sub u v, chunks = u ++ sub ++ v ∧ ln = sub.flatten := by
  have h := wrapSeg_foldl width chunks [] ⟨[], [], 0⟩
    (by intro ln hln; simp at hln) ⟨[], rfl⟩
  have hlines := h.1
  have hcur := h.2
  simp only [List.nil_append] at hlines hcur
  obtain ⟨u, hu⟩ := hcur
  intro ln hln
  unfold wrapChunks flushCur at hln
  revert hu hlines hln
  generalize List.foldl (wrapStep width) ⟨[], [], 0⟩ chunks = G
  intro hlines hu hln
  split at hln
  · exact hlines ln hln
  · rcases List.mem_append.mp hln with h1 | h2
    · exact hlines ln h1
    · rw [List.mem_singleton.mp h2]
      rcases dropTrailingSpace_eq G.cur with hdt | ⟨last, hdt⟩
      · refine ⟨dropTrailingSpace G.cur, u, [], ?_, rfl⟩
        rw [hdt, hu]
        simp
      · refine ⟨dropTrailingSpace G.cur, u, [last], ?_, rfl⟩
        rw [hu]
        conv_lhs => rw [hdt]
        simp

/-- C5: every output line of an unprotected reflow either has length at most
the configured width or is a single word (no space) left unbroken to
overflow; moreover every output line is a concatenation of consecutive whole
chunks of the munged text, so words are never split mid-word (and hyphens,
being word characters here, are never break points). -/
theorem width_bound (text : List Char) (width : Nat) :
    ∀ ln ∈ splitNL (reflow text width false),
      (ln.length ≤ width ∨ (ln ≠ [] ∧ ∀ c ∈ ln, c ≠ ' ')) ∧
      ∃ sub u v, chunksOf (munge (dedent (strip text))) = u ++ sub ++ v ∧
        ln = sub.flatten := by
  intro ln hln
  have hgood := chunksOf_good (munge (dedent (strip text)))
    (munge_no_nl (dedent (strip text)))
  have hsound := wrapChunks_sound width (chunksOf (munge (dedent (strip text)))) hgood
  have hseg := wrapChunks_seg width (chunksOf (munge (dedent (strip text))))
  have hre : reflow text width false =
      joinNL (wrapChunks width (chunksOf (munge (dedent (strip text))))) := by
    simp [reflow, fill]
  rw [hre] at hln
  cases hws : wrapChunks width (chunksOf (munge (dedent (strip text)))) with
  | nil =>
    rw [hws] at hln
    simp only [joinNL, splitNL, List.mem_singleton] at hln
    rw [hln]
    exact ⟨Or.inl (Nat.zero_le _),
      ⟨[], [], chunksOf (munge (dedent (strip text))), by simp, rfl⟩⟩
  | cons w ws =>
    have hnn : wrapChunks width (chunksOf (munge (dedent (strip text)))) ≠ [] := by
      rw [hws]
      simp
    have hlnl : ∀ l ∈ wrapChunks width (chunksOf (munge (dedent (strip text)))),
        ∀ c ∈ l, c ≠ '\n' := fun l hl => (hsound l hl).2.1
    rw [splitNL_joinNL _ hnn hlnl] at hln
    obtain ⟨hne, _, hbw⟩ := hsound ln hln
    refine ⟨?_, hseg ln hln⟩
    rcases hbw with hb | hw
    · exact Or.inl hb
    · exact Or.inr ⟨hne, hw⟩

/-- Witness for `width_bound` at a concrete input: with width 3, the word
`aaaa` overflows unbroken and `bb` fits. -/
theorem width_bound_witness :
    ((S "aaaa").length ≤ 3 ∨ (S "aaaa" ≠ [] ∧ ∀ c ∈ S "aaaa", c ≠ ' ')) ∧
    ∃ sub u v, chunksOf (munge (dedent (strip (S "aaaa bb")))) = u ++ sub ++ v ∧
      S "aaaa" = sub.flatten :=
  width_bound (S "aaaa bb") 3 (S "aaaa") (by decide)

/-! ### Non-empty output entries -/

theorem mem_dropWhile_of_not (p : Char → Bool) (l : List Char) (c : Char)
    (hc : c ∈ l) (hp : p c = false) : c ∈ l.dropWhile p := by
  have h0 := List.takeWhile_append_dropWhile (p := p) (l := l)
  rw [← h0] at hc
  rcases List.mem_append.mp hc with h1 | h2
  · exact absurd (List.mem_takeWhile_imp h1) (by simp [hp])
  · exact h2

theorem head_dropWhile_false (p : Char → Bool) :
    ∀ (l : List Char) (c : Char) (rest : List Char),
      l.dropWhile p = c :: rest → p c = false := by
  intro l
  induction l with
  | nil =>
    intro c rest h
    simp at h
  | cons d ds ih =>
    intro c rest h
    rw [List.dropWhile_cons] at h
    split at h
    · exact ih c rest h
    case isFalse hd =>
      injection h with h1 _
      rw [← h1]
      exact Bool.eq_false_iff.mpr hd

theorem mem_rstrip_of_not (l : List Char) (c : Char) (hc : c ∈ l)
    (hp : pySpace c = false) : c ∈ rstrip l := by
  unfold rstrip
  rw [List.mem_reverse]
  exact mem_dropWhile_of_not pySpace l.reverse c (by simpa using hc) hp

theorem mem_strip_of_not (l : List Char) (c : Char) (hc : c ∈ l)
    (hp : pySpace c = false) : c ∈ strip l := by
  unfold strip
  exact mem_rstrip_of_not _ c (mem_dropWhile_of_not pySpace l c hc hp) hp

theorem hasNonSpace_iff (l : List Char) :
    hasNonSpace l = true ↔ strip l ≠ [] := by
  rw [Ne, strip_eq_nil_iff]
  unfold hasNonSpace
  rw [List.any_eq_true]
  constructor
  · rintro ⟨c, hc, hp⟩ hall
    rw [hall c hc] at hp
    simp at hp
  · intro h
    by_contra hno
    apply h
    intro c hc
    by_contra hpc
    apply hno
    refine ⟨c, hc, ?_⟩
    rw [Bool.eq_false_iff.mpr hpc]
    rfl

theorem mem_expandTabs_of_not :
    ∀ (t : List Char) (col : Nat) (c : Char), c ∈ t → pySpace c = false →
      c ∈ expandTabsAux col t := by
  intro t
  induction t with
  | nil =>
    intro col c hc _
    simp at hc
  | cons d ds ih =>
    intro col c hc hp
    rcases List.mem_cons.mp hc with rfl | hds
    · have h1 : ¬ c = '\t' := by
        intro hh
        rw [hh] at hp
        simp [pySpace] at hp
      have h2 : (c = '\n' || c = '\r') = false := by
        have hn : ¬ c = '\n' := by
          intro hh
          rw [hh] at hp
          simp [pySpace] at hp
        have hr : ¬ c = '\r' := by
          intro hh
          rw [hh] at hp
          simp [pySpace] at hp
        simp [hn, hr]
      simp [expandTabsAux, h1, h2]
    · by_cases h1 : d = '\t'
      · simp only [expandTabsAux, if_pos h1]
        exact List.mem_append_right _ (ih _ c hds hp)
      · by_cases h2 : (d = '\n' || d = '\r') = true
        · simp only [expandTabsAux, if_neg h1, h2, if_true]
          exact List.mem_cons_of_mem _ (ih _ c hds hp)
        · simp only [expandTabsAux, if_neg h1, Bool.eq_false_iff.mpr h2,
            Bool.false_eq_true, if_false]
          exact List.mem_cons_of_mem _ (ih _ c hds hp)

theorem mem_munge_of_not (t : List Char) (c : Char) (hc : c ∈ t)
    (hp : pySpace c = false) : c ∈ munge t := by
  unfold munge
  rw [List.mem_map]
  refine ⟨c, mem_expandTabs_of_not t 0 c hc hp, ?_⟩
  rw [if_neg (by simp [hp])]

theorem mem_dropTrailingSpace_of_word (cur : List (List Char))
    (ch : List Char) (hch : ch ∈ cur) (hw : isSpaceChunk ch = false) :
    ch ∈ dropTrailingSpace cur := by
  unfold dropTrailingSpace
  cases hl : cur.getLast? with
  | none => exact hch
  | some last =>
    simp only
    split
    case isTrue hsp =>
      have hcur := List.dropLast_append_getLast? last hl
      rw [← hcur] at hch
      rcases List.mem_append.mp hch with h1 | h2
      · exact h1
      · rw [List.mem_singleton.mp h2] at hw
        rw [hw] at hsp
        exact absurd hsp Bool.false_ne_true
    · exact hch

theorem flushCur_ne_nil_of_word (st : WrapState) (ch : List Char)
    (hch : ch ∈ st.cur) (hw : isSpaceChunk ch = false) :
    flushCur st ≠ [] := by
  unfold flushCur
  have hmem := mem_dropTrailingSpace_of_word st.cur ch hch hw
  have hne : dropTrailingSpace st.cur ≠ [] := by
    intro hh
    rw [hh] at hmem
    simp at hmem
  rw [if_neg (by simpa [List.isEmpty_iff] using hne)]
  simp

theorem flushCur_ne_nil_of_lines (st : WrapState) (h : st.lines ≠ []) :
    flushCur st ≠ [] := by
  unfold flushCur
  split
  · exact h
  · simp

theorem wrapStep_word (width : Nat) (st : WrapState) (ch : List Char)
    (h : (st.lines ≠ [] ∨ ∃ c ∈ st.cur, isSpaceChunk c = false) ∨
      isSpaceChunk ch = false) :
    (wrapStep width st ch).lines ≠ [] ∨
      ∃ c ∈ (wrapStep width st ch).cur, isSpaceChunk c = false := by
  unfold wrapStep
  split
  case isTrue hemp =>
    have hcurnil : st.cur = [] := List.isEmpty_iff.mp hemp
    split
    case isTrue hsk =>
      left
      have : st.lines.isEmpty = false := by
        rcases Bool.and_eq_true .. |>.mp hsk with ⟨_, h2⟩
        simpa using h2
      intro hh
      rw [hh] at this
      simp at this
    case isFalse hsk =>
      rcases h with h | h
      · rcases h with h | ⟨c, hc, _⟩
        · exact Or.inl h
        · rw [hcurnil] at hc
          simp at hc
      · exact Or.inr ⟨ch, List.mem_singleton.mpr rfl, h⟩
  · split
    · rcases h with h | h
      · rcases h with h | ⟨c, hc, hcw⟩
        · exact Or.inl h
        · exact Or.inr ⟨c, List.mem_append_left _ hc, hcw⟩
      · exact Or.inr ⟨ch, List.mem_append_right _ (List.mem_singleton.mpr rfl), h⟩
    · split
      case isTrue hsk =>
        left
        rcases Bool.and_eq_true .. |>.mp hsk with ⟨_, h2⟩
        intro hh
        have hh' : flushCur st = [] := hh
        rw [hh'] at h2
        simp at h2
      case isFalse hsk =>
        rcases h with h | h
        · rcases h with h | ⟨c, hc, hcw⟩
          · exact Or.inl (flushCur_ne_nil_of_lines st h)
          · exact Or.inl (flushCur_ne_nil_of_word st c hc hcw)
        · exact Or.inr ⟨ch, List.mem_singleton.mpr rfl, h⟩

theorem wrapJ_foldl (width : Nat) :
    ∀ (chunks : List (List Char)) (st : WrapState),
      ((st.lines ≠ [] ∨ ∃ c ∈ st.cur, isSpaceChunk c = false) ∨
        ∃ c ∈ chunks, isSpaceChunk c = false) →
      ((chunks.foldl (wrapStep width) st).lines ≠ [] ∨
        ∃ c ∈ (chunks.foldl (wrapStep width) st).cur,
          isSpaceChunk c = false) := by
  intro chunks
  induction chunks with
  | nil =>
    intro st h
    rcases h with h | h
    · exact h
    · simp at h
  | cons ch rest ih =>
    intro st h
    rw [List.foldl_cons]
    rcases h with h | ⟨c, hc, hw⟩
    · exact ih _ (Or.inl (wrapStep_word width st ch (Or.inl h)))
    · rcases List.mem_cons.mp hc with heq | hcrest
      · subst heq
        exact ih _ (Or.inl (wrapStep_word width st c (Or.inr hw)))
      · exact ih _ (Or.inr ⟨c, hcrest, hw⟩)

theorem wrapChunks_ne_nil (width : Nat) (chunks : List (List Char))
    (ch : List Char) (hch : ch ∈ chunks) (hw : isSpaceChunk ch = false) :
    wrapChunks width chunks ≠ [] := by
  have hJ := wrapJ_foldl width chunks ⟨[], [], 0⟩ (Or.inr ⟨ch, hch, hw⟩)
  unfold wrapChunks
  rcases hJ with h | ⟨c, hc, hcw⟩
  · exact flushCur_ne_nil_of_lines _ h
  · exact flushCur_ne_nil_of_word _ c hc hcw

theorem joinNL_ne_nil (ls : List (List Char)) (hne : ls ≠ [])
    (hall : ∀ l ∈ ls, l ≠ []) : joinNL ls ≠ [] := by
  cases ls with
  | nil => exact absurd rfl hne
  | cons x xs =>
    cases xs with
    | nil => exact hall x (List.mem_cons_self x [])
    | cons y ys =>
      show x ++ '\n' :: joinNL (y :: ys) ≠ []
      simp

/-- An accumulator containing visible text reflows to a non-empty string. -/
theorem reflow_ne_nil (t : List Char) (w : Nat)
    (h : hasNonSpace t = true) : reflow t w false ≠ [] := by
  obtain ⟨c, hct, hcp'⟩ := List.any_eq_true.mp h
  have hcp : pySpace c = false := by
    cases hb : pySpace c
    · rfl
    · rw [hb] at hcp'
      simp at hcp'
  have h1 : c ∈ strip t := mem_strip_of_not t c hct hcp
  have h2 : c ∈ dedent (strip t) := by
    unfold dedent
    refine mem_dropWhile_of_not _ _ c h1 ?_
    have hsp : ¬ c = ' ' := by
      intro hh
      rw [hh] at hcp
      simp [pySpace] at hcp
    have htb : ¬ c = '\t' := by
      intro hh
      rw [hh] at hcp
      simp [pySpace] at hcp
    simp [hsp, htb]
  have h3 : c ∈ munge (dedent (strip t)) := mem_munge_of_not _ c h2 hcp
  have hcsp : ¬ c = ' ' := by
    intro hh
    rw [hh] at hcp
    simp [pySpace] at hcp
  rw [← chunksOf_flatten (munge (dedent (strip t)))] at h3
  obtain ⟨ch, hch, hcch⟩ := List.mem_flatten.mp h3
  have hw : isSpaceChunk ch = false := by
    cases hb : isSpaceChunk ch
    · rfl
    · exfalso
      unfold isSpaceChunk at hb
      exact hcsp (List.all_eq_true.mp hb c hcch |> of_decide_eq_true)
  have hnn := wrapChunks_ne_nil w (chunksOf (munge (dedent (strip t)))) ch hch hw
  have hgood := chunksOf_good (munge (dedent (strip t)))
    (munge_no_nl (dedent (strip t)))
  have hsound := wrapChunks_sound w (chunksOf (munge (dedent (strip t)))) hgood
  have hre : reflow t w false =
      joinNL (wrapChunks w (chunksOf (munge (dedent (strip t))))) := by
    simp [reflow, fill]
  rw [hre]
  exact joinNL_ne_nil _ hnn (fun l hl => (hsound l hl).1)

theorem sfsAux_head (cs : List Char) :
    ∀ (prev : Option Char) (fs rem : List Char),
      sfsAux prev cs = some (fs, rem) → fs.head? = cs.head? := by
  induction cs with
  | nil =>
    intro prev fs rem h
    simp [sfsAux] at h
  | cons c rest ih =>
    intro prev fs rem h
    by_cases hc : (decide (c = '.') && prevOkWith stopPrev prev && nextOk rest) = true
    · simp only [sfsAux, hc, if_true] at h
      simp only [Option.some.injEq, Prod.mk.injEq] at h
      rw [← h.1]
      rfl
    · have hc' : (decide (c = '.') && prevOkWith stopPrev prev && nextOk rest)
          = false := Bool.eq_false_iff.mpr hc
      simp only [sfsAux, hc'] at h
      cases hres : sfsAux (some c) rest with
      | none =>
        rw [hres] at h
        simp at h
      | some pr =>
        obtain ⟨fs', rem'⟩ := pr
        rw [hres] at h
        simp at h
        rw [← h.1]
        rfl

theorem split_first_sentence_head (l : List Char) :
    (split_first_sentence l).1.head? = l.head? := by
  unfold split_first_sentence
  cases h : sfsAux none l with
  | none => rfl
  | some pr =>
    obtain ⟨fs, rem⟩ := pr
    simpa using sfsAux_head l none fs rem h

theorem sfsAux_rest_head (cs : List Char) :
    ∀ (prev : Option Char) (fs rem : List Char),
      sfsAux prev cs = some (fs, rem) →
      rem = [] ∨ ∃ c cs', rem = c :: cs' ∧ pySpace c = false := by
  induction cs with
  | nil =>
    intro prev fs rem h
    simp [sfsAux] at h
  | cons c rest ih =>
    intro prev fs rem h
    by_cases hc : (decide (c = '.') && prevOkWith stopPrev prev && nextOk rest) = true
    · simp only [sfsAux, hc, if_true] at h
      simp only [Option.some.injEq, Prod.mk.injEq] at h
      rw [← h.2]
      cases hr : lstrip rest with
      | nil => exact Or.inl rfl
      | cons d ds =>
        exact Or.inr ⟨d, ds, rfl, head_dropWhile_false pySpace rest d ds hr⟩
    · have hc' : (decide (c = '.') && prevOkWith stopPrev prev && nextOk rest)
          = false := Bool.eq_false_iff.mpr hc
      simp only [sfsAux, hc'] at h
      cases hres : sfsAux (some c) rest with
      | none =>
        rw [hres] at h
        simp at h
      | some pr =>
        obtain ⟨fs', rem'⟩ := pr
        rw [hres] at h
        simp at h
        rw [← h.2]
        exact ih (some c) fs' rem' hres

theorem split_rest_good (l : List Char) :
    (split_first_sentence l).2 = [] ∨ strip (split_first_sentence l).2 ≠ [] := by
  unfold split_first_sentence
  cases h : sfsAux none l with
  | none => exact Or.inl rfl
  | some pr =>
    obtain ⟨fs, rem⟩ := pr
    rcases sfsAux_rest_head l none fs rem h with h1 | ⟨c, cs', hrem, hc⟩
    · exact Or.inl (by simpa using h1)
    · right
      rw [← hasNonSpace_iff]
      simp only [hrem]
      unfold hasNonSpace
      rw [List.any_eq_true]
      exact ⟨c, List.mem_cons_self c cs', by rw [hc]; rfl⟩

theorem rstrip_append_exists (m : List Char) : ∃ v, m = rstrip m ++ v := by
  refine ⟨(m.reverse.takeWhile pySpace).reverse, ?_⟩
  unfold rstrip
  have h0 := List.takeWhile_append_dropWhile (p := pySpace) (l := m.reverse)
  conv_lhs => rw [← List.reverse_reverse m, ← h0]
  rw [List.reverse_append]

theorem strip_head_non_space (l : List Char) :
    ∀ c cs, strip l = c :: cs → pySpace c = false := by
  intro c cs h
  obtain ⟨v, hv⟩ := rstrip_append_exists (lstrip l)
  rw [strip] at h
  rw [h, List.cons_append] at hv
  exact head_dropWhile_false pySpace l c (cs ++ v) hv

theorem cat1_good (line : List Char) (h : strip line ≠ []) :
    hasNonSpace (split_first_sentence (strip line)).1 = true := by
  cases hs : strip line with
  | nil => exact absurd hs h
  | cons c cs =>
    have hc : pySpace c = false := strip_head_non_space line c cs hs
    have hh := split_first_sentence_head (c :: cs)
    cases hfs : (split_first_sentence (c :: cs)).1 with
    | nil =>
      rw [hfs] at hh
      simp at hh
    | cons d ds =>
      rw [hfs] at hh
      simp only [List.head?_cons, Option.some.injEq] at hh
      unfold hasNonSpace
      rw [List.any_eq_true]
      refine ⟨d, List.mem_cons_self d ds, ?_⟩
      rw [hh, hc]
      rfl

theorem hasNonSpace_append_right (a b : List Char)
    (h : hasNonSpace b = true) : hasNonSpace (a ++ b) = true := by
  unfold hasNonSpace at h ⊢
  rw [List.any_eq_true] at h ⊢
  obtain ⟨c, hc, hp⟩ := h
  exact ⟨c, List.mem_append_right a hc, hp⟩

theorem hasNonSpace_cons_space (b : List Char) (h : hasNonSpace b = true) :
    hasNonSpace (' ' :: b) = true := by
  unfold hasNonSpace at h ⊢
  rw [List.any_eq_true] at h ⊢
  obtain ⟨c, hc, hp⟩ := h
  exact ⟨c, List.mem_cons_of_mem _ hc, hp⟩

theorem hasNonSpace_rstrip (line : List Char) (h : strip line ≠ []) :
    hasNonSpace (rstrip line) = true := by
  have h1 : hasNonSpace line = true := by
    rw [hasNonSpace_iff]
    exact h
  obtain ⟨c, hc, hp'⟩ := List.any_eq_true.mp h1
  have hp : pySpace c = false := by
    cases hb : pySpace c
    · rfl
    · rw [hb] at hp'
      simp at hp'
  unfold hasNonSpace
  rw [List.any_eq_true]
  exact ⟨c, mem_rstrip_of_not line c hc hp, hp'⟩

theorem isEmpty_false_of_ne (l : List Char) (h : l ≠ []) :
    l.isEmpty = false := by
  cases hb : l.isEmpty
  · rfl
  · exact absurd (List.isEmpty_iff.mp hb) h

/-- The inner loop appends only non-empty entries, keeps the accumulator
empty-or-visible, and clears the protect flag. -/
theorem processWholeF_count (w : Nat) :
    ∀ (fuel : Nat) (st : FmtState) (line : List Char),
      plMeasure st.cat_buffer line ≤ fuel →
      (line = [] ∨ strip line ≠ []) →
      (st.cat_buffer = [] ∨ hasNonSpace st.cat_buffer = true) →
      st.protect = false →
      ((processWholeF w fuel st line).out_buffer.countP
          (fun e => e.isEmpty) =
        st.out_buffer.countP (fun e => e.isEmpty)) ∧
      ((processWholeF w fuel st line).cat_buffer = [] ∨
        hasNonSpace (processWholeF w fuel st line).cat_buffer = true) ∧
      (processWholeF w fuel st line).protect = false := by
  intro fuel
  induction fuel with
  | zero =>
    intro st line hm hline hcat hpr
    have hnil : line = [] := by
      have := plMeasure_lb st.cat_buffer line
      have hlen : line.length = 0 := by omega
      exact List.length_eq_zero.mp hlen
    subst hnil
    rw [processWholeF_nil]
    exact ⟨rfl, hcat, hpr⟩
  | succ f ih =>
    intro st line hm hline hcat hpr
    by_cases hl : line.length = 0
    · have hnil : line = [] := List.length_eq_zero.mp hl
      subst hnil
      rw [processWholeF_nil]
      exact ⟨rfl, hcat, hpr⟩
    · have hlne : line ≠ [] := by
        intro hh
        rw [hh] at hl
        exact hl rfl
      have hsl : strip line ≠ [] := hline.resolve_left hlne
      have hdm := driveStep_measure w st line hlne
      have hm' : plMeasure
          (driveStep w st (process_line st.cat_buffer line st.open_groups)).cat_buffer
          (process_line st.cat_buffer line st.open_groups).line ≤ f := by
        omega
      have hABCD :
          ((driveStep w st (process_line st.cat_buffer line st.open_groups)).out_buffer.countP
              (fun e => e.isEmpty) =
            st.out_buffer.countP (fun e => e.isEmpty)) ∧
          ((driveStep w st (process_line st.cat_buffer line st.open_groups)).cat_buffer = [] ∨
            hasNonSpace (driveStep w st (process_line st.cat_buffer line st.open_groups)).cat_buffer = true) ∧
          ((driveStep w st (process_line st.cat_buffer line st.open_groups)).protect = false) ∧
          ((process_line st.cat_buffer line st.open_groups).line = [] ∨
            strip (process_line st.cat_buffer line st.open_groups).line ≠ []) := by
        by_cases hp : is_protected (strip line) = true
        · by_cases hcatl : st.cat_buffer.length = 0
          · have hr : process_line st.cat_buffer line st.open_groups =
                ⟨rstrip line, [], st.open_groups, true, true⟩ := by
              simp [process_line, hp, hcatl]
            have hentry : rstrip line ≠ [] := by
              intro hh
              have hns := hasNonSpace_rstrip line hsl
              rw [hh] at hns
              simp [hasNonSpace] at hns
            rw [hr]
            refine ⟨?_, Or.inl rfl, rfl, Or.inl rfl⟩
            simp [driveStep, reflow, List.countP_append, List.countP_cons,
              isEmpty_false_of_ne _ hentry]
          · have hr : process_line st.cat_buffer line st.open_groups =
                ⟨st.cat_buffer, line, st.open_groups, true, false⟩ := by
              simp [process_line, hp, hcatl]
            have hcatne : st.cat_buffer ≠ [] := by
              intro hh
              rw [hh] at hcatl
              exact hcatl rfl
            have hns : hasNonSpace st.cat_buffer = true := hcat.resolve_left hcatne
            have hentry : reflow st.cat_buffer w false ≠ [] :=
              reflow_ne_nil _ _ hns
            rw [hr]
            refine ⟨?_, Or.inl rfl, rfl, Or.inr hsl⟩
            simp [driveStep, List.countP_append, List.countP_cons,
              isEmpty_false_of_ne _ hentry]
        · have hp' : is_protected (strip line) = false := Bool.eq_false_iff.mpr hp
          by_cases hcond : group_tally (strip line) = 0 ∧ st.open_groups = 0
          · have hr := process_line_plain st.cat_buffer line st.open_groups
              hp' hcond.1 hcond.2
            have hfs := cat1_good line hsl
            have hcat1 : hasNonSpace
                (if st.cat_buffer.length > 0 then
                  st.cat_buffer ++ ' ' :: (split_first_sentence (strip line)).1
                else (split_first_sentence (strip line)).1) = true := by
              split
              · exact hasNonSpace_append_right _ _ (hasNonSpace_cons_space _ hfs)
              · exact hfs
            have hentry : reflow
                (if st.cat_buffer.length > 0 then
                  st.cat_buffer ++ ' ' :: (split_first_sentence (strip line)).1
                else (split_first_sentence (strip line)).1) w false ≠ [] :=
              reflow_ne_nil _ _ hcat1
            have hrest := split_rest_good (strip line)
            rw [hr]
            by_cases hready : (decide ((split_first_sentence (strip line)).2.length > 0)
                || ends_with_full_stop (split_first_sentence (strip line)).1) = true
            · refine ⟨?_, Or.inl ?_, ?_, hrest⟩
              · simp [driveStep, hready, List.countP_append, List.countP_cons,
                  isEmpty_false_of_ne _ hentry]
              · simp [driveStep, hready]
              · simp [driveStep, hready]
            · have hready' := Bool.eq_false_iff.mpr hready
              refine ⟨?_, Or.inr ?_, ?_, hrest⟩
              · simp [driveStep, hready']
              · simp only [driveStep, hready', Bool.false_eq_true, if_false]
                exact hcat1
              · simp [driveStep, hready']
          · by_cases hcatl : st.cat_buffer.length = 0
            · have hr : process_line st.cat_buffer line st.open_groups =
                  ⟨rstrip line, [], st.open_groups + group_tally (strip line),
                    true, true⟩ := by
                simp [process_line, hp', hcond, hcatl]
              have hentry : rstrip line ≠ [] := by
                intro hh
                have hns := hasNonSpace_rstrip line hsl
                rw [hh] at hns
                simp [hasNonSpace] at hns
              rw [hr]
              refine ⟨?_, Or.inl rfl, rfl, Or.inl rfl⟩
              simp [driveStep, reflow, List.countP_append, List.countP_cons,
                isEmpty_false_of_ne _ hentry]
            · have hr : process_line st.cat_buffer line st.open_groups =
                  ⟨st.cat_buffer, line, st.open_groups, true, false⟩ := by
                simp [process_line, hp', hcond, hcatl]
              have hcatne : st.cat_buffer ≠ [] := by
                intro hh
                rw [hh] at hcatl
                exact hcatl rfl
              have hns : hasNonSpace st.cat_buffer = true := hcat.resolve_left hcatne
              have hentry : reflow st.cat_buffer w false ≠ [] :=
                reflow_ne_nil _ _ hns
              rw [hr]
              refine ⟨?_, Or.inl rfl, rfl, Or.inr hsl⟩
              simp [driveStep, List.countP_append, List.countP_cons,
                isEmpty_false_of_ne _ hentry]
      obtain ⟨hA, hB, hC, hD⟩ := hABCD
      simp only [processWholeF, hl, if_false]
      obtain ⟨hc1, hc2, hc3⟩ := ih _ _ hm' hD hB hC
      exact ⟨by rw [hc1, hA], hc2, hc3⟩

theorem formatStep_count (w : Nat) (st : FmtState) (line : List Char)
    (hinv : FmtInv st) :
    ((formatStep w st line).out_buffer.countP (fun e => e.isEmpty) =
      st.out_buffer.countP (fun e => e.isEmpty) +
        (if (strip line).isEmpty = true then 1 else 0)) ∧
    FmtInv (formatStep w st line) := by
  obtain ⟨hcat, hpr⟩ := hinv
  unfold formatStep
  by_cases hb : (strip line).length = 0
  · rw [if_pos hb]
    have hbe : (strip line).isEmpty = true := by
      rw [List.isEmpty_iff]
      exact List.length_eq_zero.mp hb
    constructor
    · show (finalOut w st ++ [[]]).countP _ = _
      rw [List.countP_append]
      have hfo : (finalOut w st).countP (fun e => e.isEmpty) =
          st.out_buffer.countP (fun e => e.isEmpty) := by
        unfold finalOut
        split
        case isTrue hcl =>
          have hcatne : st.cat_buffer ≠ [] := by
            intro hh
            rw [hh] at hcl
            simp at hcl
          have hns := hcat.resolve_left hcatne
          rw [hpr]
          simp [List.countP_append, List.countP_cons,
            isEmpty_false_of_ne _ (reflow_ne_nil _ _ hns)]
        · rfl
      rw [hfo, hbe]
      simp [List.countP_cons]
    · exact ⟨Or.inl rfl, rfl⟩
  · rw [if_neg hb]
    have hsl : strip line ≠ [] := by
      intro hh
      rw [hh] at hb
      exact hb rfl
    have hbe : (strip line).isEmpty = false := isEmpty_false_of_ne _ hsl
    have h := processWholeF_count w (2 * line.length + 1) st line
      (plMeasure_le _ _) (Or.inr hsl) hcat hpr
    unfold processWhole
    refine ⟨?_, h.2.1, h.2.2⟩
    rw [h.1, hbe]
    simp

theorem foldl_count (w : Nat) :
    ∀ (ls : List (List Char)) (st : FmtState), FmtInv st →
      ((ls.foldl (formatStep w) st).out_buffer.countP (fun e => e.isEmpty) =
        st.out_buffer.countP (fun e => e.isEmpty) +
          ls.countP (fun l => (strip l).isEmpty)) ∧
      FmtInv (ls.foldl (formatStep w) st) := by
  intro ls
  induction ls with
  | nil =>
    intro st h
    exact ⟨by simp, h⟩
  | cons x xs ih =>
    intro st h
    rw [List.foldl_cons]
    obtain ⟨h1, h2⟩ := formatStep_count w st x h
    obtain ⟨h3, h4⟩ := ih (formatStep w st x) h2
    refine ⟨?_, h4⟩
    rw [h3, h1, List.countP_cons]
    omega

/-- C6: the number of empty entries in the output buffer equals the number
of blank (whitespace-only) input lines; the same holds after every prefix of
the input, so the blank-line paragraph breaks keep their relative position
(all other entries are non-empty). -/
theorem paragraph_breaks_preserved (w : Nat) (lines : List (List Char)) :
    ((format_out_buffer lines w).countP (fun e => e.isEmpty) =
      lines.countP (fun l => (strip l).isEmpty)) ∧
    (∀ pre suf, lines = pre ++ suf →
      (pre.foldl (formatStep w) initState).out_buffer.countP
          (fun e => e.isEmpty) =
        pre.countP (fun l => (strip l).isEmpty)) := by
  have hinit : FmtInv initState := ⟨Or.inl rfl, rfl⟩
  constructor
  · obtain ⟨hc, hinv⟩ := foldl_count w lines initState hinit
    have hc0 : (lines.foldl (formatStep w) initState).out_buffer.countP
        (fun e => e.isEmpty) = lines.countP (fun l => (strip l).isEmpty) := by
      rw [hc]
      simp [initState]
    unfold format_out_buffer finalOut
    split
    case isTrue hcl =>
      have hcatne : (lines.foldl (formatStep w) initState).cat_buffer ≠ [] := by
        intro hh
        rw [hh] at hcl
        simp at hcl
      have hns := hinv.1.resolve_left hcatne
      have hrn := reflow_ne_nil _ w hns
      rw [hinv.2, List.countP_append, hc0]
      simp [List.countP_cons, isEmpty_false_of_ne _ hrn]
    · exact hc0
  · intro pre suf hsplit
    obtain ⟨hc, _⟩ := foldl_count w pre initState hinit
    rw [hc]
    simp [initState]

/-- Witness for `paragraph_breaks_preserved` at a concrete input with a run
of two consecutive blank lines. -/
theorem paragraph_breaks_preserved_witness :
    ((format_out_buffer [S "a\n", S "\n", S "\n", S "b.\n"] 80).countP
        (fun e => e.isEmpty) =
      ([S "a\n", S "\n", S "\n", S "b.\n"]).countP
        (fun l => (strip l).isEmpty)) ∧
    (([S "a\n", S "\n"].foldl (formatStep 80) initState).out_buffer.countP
        (fun e => e.isEmpty) =
      ([S "a\n", S "\n"]).countP (fun l => (strip l).isEmpty)) :=
  ⟨(paragraph_breaks_preserved 80 [S "a\n", S "\n", S "\n", S "b.\n"]).1,
   (paragraph_breaks_preserved 80 [S "a\n", S "\n", S "\n", S "b.\n"]).2
     [S "a\n", S "\n"] [S "\n", S "b.\n"] rfl⟩

end Fmtlatex
